import Mathlib

/-!
Verification of the OpenAPI-to-k6 generator (src/openapi_to_k6.py) against its
natural-language specification.  The Python program is shallowly embedded:
dictionaries loaded from the YAML/JSON spec become the `JVal` type below
(Python dicts are insertion ordered, so objects are association lists),
fallible Python code (attribute errors, index errors) becomes `Option`, and
generation functions become pure Lean functions producing the exact strings
the Python f-strings produce.  Brace characters inside string literals are
written with the escapes \x7b and \x7d.
-/

/-- A JSON/YAML value as produced by Python's `json.load` / `yaml.safe_load`:
`null`/`None`, booleans, integers, strings, lists, and insertion-ordered
dictionaries with string keys.  (Floating point numbers are not modelled:
no claim under verification involves them.) -/
inductive JVal where
  | null : JVal
  | bool : Bool → JVal
  | int : Int → JVal
  | str : String → JVal
  | arr : List JVal → JVal
  | obj : List (String × JVal) → JVal

/-- Python `d.get(k)` on a dict: the value of the first binding of `k`, if any. -/
def dget (fields : List (String × JVal)) (k : String) : Option JVal :=
  (fields.find? (fun kv => kv.1 = k)).map (fun kv => kv.2)

/-- Python `d.get(k, default)` on a dict. -/
def dgetD (fields : List (String × JVal)) (k : String) (d : JVal) : JVal :=
  (dget fields k).getD d

/-- The fields of a value that Python treats as a dict; `none` models the
`AttributeError` raised when a dict method is called on a non-dict. -/
def JVal.getObj? : JVal → Option (List (String × JVal))
  | .obj fields => some fields
  | _ => none

/-- The contents of a value used where Python requires a `str`; `none` models
the `TypeError`/`AttributeError` raised otherwise. -/
def JVal.getStr? : JVal → Option String
  | .str s => some s
  | _ => none

/-- Python truthiness of a loaded value (`if x:`). -/
def pyTruthy : JVal → Bool
  | .null => false
  | .bool b => b
  | .int n => n != 0
  | .str s => s ≠ ""
  | .arr xs => !xs.isEmpty
  | .obj fields => !fields.isEmpty

/-- One character of Python's `\w` class (ASCII range): letter, digit or `_`. -/
def wordChar (c : Char) : Bool := c.isAlphanum || c = '_'

/-- Python `s.lower()` (ASCII range, which is all the sources exercise). -/
def pyLower (s : String) : String := ⟨s.toList.map Char.toLower⟩

/-- Python `s.upper()` (ASCII range, which is all the sources exercise). -/
def pyUpper (s : String) : String := ⟨s.toList.map Char.toUpper⟩

/-- `pat` occurs as a contiguous run inside `s` (Python `pat in s` on lists of
characters). -/
def isInfixL (pat : List Char) : List Char → Bool
  | [] => pat.isEmpty
  | c :: t => pat.isPrefixOf (c :: t) || isInfixL pat t

/-- Python substring test `pat in s` for strings. -/
def containsS (s pat : String) : Bool := isInfixL pat.toList s.toList

/-- Python membership test `k in v` where `k` is a string: key lookup on dicts,
`==`-membership on lists (a `str` only equals a `str`), substring test on
strings; `none` models the `TypeError` on other values. -/
def pyIn (k : String) : JVal → Option Bool
  | .obj fields => some (fields.any (fun kv => kv.1 = k))
  | .arr xs => some (xs.any (fun x => match x with | .str s => s = k | _ => false))
  | .str s => some (containsS s k)
  | _ => none

mutual

/-- Python `repr` of a loaded value, as used by `str()` on lists and dicts.
String escaping corner cases inside `repr` are not modelled; no claim under
verification evaluates it on a string containing quotes. -/
def pyRepr : JVal → String
  | .null => "None"
  | .bool b => if b then "True" else "False"
  | .int n => toString n
  | .str s => "'" ++ s ++ "'"
  | .arr xs => "[" ++ ", ".intercalate (pyReprList xs) ++ "]"
  | .obj fields => "\x7b" ++ ", ".intercalate (pyReprFields fields) ++ "\x7d"

/-- `pyRepr` mapped over list elements. -/
def pyReprList : List JVal → List String
  | [] => []
  | x :: xs => pyRepr x :: pyReprList xs

/-- `pyRepr` mapped over dict items. -/
def pyReprFields : List (String × JVal) → List String
  | [] => []
  | (k, v) :: xs => ("'" ++ k ++ "': " ++ pyRepr v) :: pyReprFields xs

end

/-- Python `str()` / f-string interpolation of a loaded value. -/
def pyStr : JVal → String
  | .str s => s
  | v => pyRepr v

/-- Python `sep.join(parts)`. -/
def pyJoin (sep : String) : List String → String
  | [] => ""
  | p :: rest => rest.foldl (fun acc x => acc ++ sep ++ x) p

/-- Fuel-driven worker for `replaceAllL`: the fuel only bounds the
recursion depth (one unit per input character suffices) and never changes
the result at the use sites. -/
def replaceAllFuel (pat rep : List Char) : Nat → List Char → List Char
  | _, [] => []
  | 0, s => s
  | fuel + 1, c :: t =>
    if pat ≠ [] ∧ pat.isPrefixOf (c :: t) then
      rep ++ replaceAllFuel pat rep fuel ((c :: t).drop pat.length)
    else
      c :: replaceAllFuel pat rep fuel t

/-- Python `s.replace(pat, rep)` on character lists: replaces all
non-overlapping occurrences, scanning left to right (`pat` nonempty at every
use site in the source). -/
def replaceAllL (pat rep : List Char) (s : List Char) : List Char :=
  replaceAllFuel pat rep s.length s

/-- Python `s.replace(pat, rep)` on strings. -/
def pyReplace (s pat rep : String) : String :=
  ⟨replaceAllL pat.toList rep.toList s.toList⟩

/-- Fuel-driven worker for `findTokens`: the fuel only bounds the recursion
depth (one unit per input character suffices) and never changes the result
at the use sites. -/
def findTokensFuel : Nat → List Char → List (List Char)
  | _, [] => []
  | 0, _ => []
  | fuel + 1, c :: rest =>
    if c = '\x7b' ∧ rest.takeWhile wordChar ≠ [] ∧
        (rest.dropWhile wordChar).head? = some '\x7d' then
      rest.takeWhile wordChar :: findTokensFuel fuel (rest.dropWhile wordChar).tail
    else
      findTokensFuel fuel rest

/-- The scanner of Python `re.findall(r'\{(\w+)\}', path)`: the captured
groups of the non-overlapping, left-to-right matches of a `\x7b`, a nonempty
run of word characters, and a `\x7d`.  On a successful match scanning resumes
after the closing brace; on failure it resumes one character later. -/
def findTokens (s : List Char) : List (List Char) :=
  findTokensFuel s.length s

/-- `extract_path_parameters` (src lines 51-53): the `\x7b name \x7d`
placeholder names of a path, in order of appearance. -/
def extract_path_parameters (path : String) : List String :=
  (findTokens path.toList).map (fun w => (⟨w⟩ : String))

/-- The replacement text substituted for the placeholder `\x7b w \x7d` by
`replace_path_parameters` (src line 141-142):
`$\x7btrackedValues.w || trackedValues.w.lower() || 'w'\x7d`. -/
def lookupExpr (w : List Char) : List Char :=
  '$' :: '\x7b' :: ("trackedValues.".toList ++ (w ++ (" || trackedValues.".toList ++
    (w.map Char.toLower ++ (" || '".toList ++ (w ++ ('\'' :: ['\x7d'])))))))

/-- The literal placeholder text `\x7b w \x7d` being replaced. -/
def tokenOf (w : List Char) : List Char := '\x7b' :: (w ++ ['\x7d'])

/-- `replace_path_parameters` (src lines 134-144): for each extracted
placeholder name, replace every occurrence of the placeholder by the runtime
lookup expression. -/
def replace_path_parameters (path : String) : String :=
  ⟨(findTokens path.toList).foldl
    (fun r w => replaceAllL (tokenOf w) (lookupExpr w) r) path.toList⟩

/-- Python `schema.get('type') == 'object'` (src line 79): `==` between a
non-string and a string is `False`, never an error. -/
def typeIsObject (sf : List (String × JVal)) : Bool :=
  match dget sf "type" with
  | some (.str t) => t = "object"
  | _ => false

/-- The per-schema part of `find_response_value_extractor` (src lines 67-83):
rule 1 (property named like the target parameter), rule 2 (property named
`id`), rule 3 (for `object` schemas, the first property whose lower-cased
name contains `id`).  `none` models a raised error, `some none` no match. -/
def checkSchema (schema : JVal) (param_name : String) : Option (Option String) := do
  let sf ← schema.getObj?
  let properties := dgetD sf "properties" (.obj [])
  let b1 ← pyIn param_name properties
  if b1 then return (some ("json." ++ param_name))
  let b2 ← pyIn "id" properties
  if b2 then return (some "json.id")
  if typeIsObject sf then
    let pf ← properties.getObj?
    return (pf.find? (fun kv => containsS (pyLower kv.1) "id")).map
      (fun kv => "json." ++ kv.1)
  return none

/-- The content-type loop of `find_response_value_extractor` (src lines
65-83): only entries whose lower-cased content type contains `json` are
examined; the first schema rule match wins. -/
def checkContent (param_name : String) : List (String × JVal) → Option (Option String)
  | [] => some none
  | (content_type, media_type) :: rest => do
    if containsS (pyLower content_type) "json" then
      let mf ← media_type.getObj?
      let schema := dgetD mf "schema" (.obj [])
      match ← checkSchema schema param_name with
      | some r => some (some r)
      | none => checkContent param_name rest
    else
      checkContent param_name rest

/-- The status-code loop of `find_response_value_extractor` (src lines
60-83): statuses are tried in the fixed order given, a missing status
contributing an empty response. -/
def checkStatuses (responses : List (String × JVal)) (param_name : String) :
    List String → Option (Option String)
  | [] => some none
  | status_code :: rest => do
    let response := dgetD responses status_code (.obj [])
    let rf ← response.getObj?
    let content ← (dgetD rf "content" (.obj [])).getObj?
    match ← checkContent param_name content with
    | some r => some (some r)
    | none => checkStatuses responses param_name rest

/-- `find_response_value_extractor` (src lines 55-85): search the `200`,
`201`, `202`, `default` responses, in that order, for a JSON schema
property to extract; `some none` means no extractor was found. -/
def find_response_value_extractor (operation : List (String × JVal))
    (param_name : String) : Option (Option String) := do
  let responses ← (dgetD operation "responses" (.obj [])).getObj?
  checkStatuses responses param_name ["200", "201", "202", "default"]

/-- Python `extractor.split('.')` on characters. -/
def splitOnChar (sep : Char) : List Char → List (List Char)
  | [] => [[]]
  | c :: t =>
    match splitOnChar sep t with
    | [] => [[c]]
    | h :: rest => if c = sep then [] :: h :: rest else (c :: h) :: rest

/-- The field interpolated into the first tracker block (src line 104):
`extractor.split('.')[1] if '.' in extractor else extractor`. -/
def extractorField (extractor : String) : String :=
  if containsS extractor "." then
    match splitOnChar '.' extractor.toList with
    | _ :: x :: _ => (⟨x⟩ : String)
    | _ => extractor
  else extractor

/-- The path-parameter tracker block emitted by `generate_value_tracker`
(src lines 100-112), rendered exactly as the Python f-string renders it. -/
def idTrackBlock (param res_var fld : String) : String :=
  "\n        try \x7b\n            if (" ++ res_var ++ ".status === 201 || " ++ res_var
    ++ ".status === 200) \x7b\n                const json = " ++ res_var
    ++ ".json();\n                const value = json." ++ fld
    ++ ";\n                if (value) \x7b\n                    trackedValues['" ++ param
    ++ "'] = value;\n                    console.log(`Tracked " ++ param
    ++ ": $\x7bvalue\x7d`);\n                \x7d\n            \x7d\n        \x7d catch (e) \x7b\n            // Response might not be JSON\n        \x7d"

/-- The franchise-creation tracker block emitted by `generate_value_tracker`
(src lines 116-130), rendered exactly as the Python f-string renders it. -/
def franchiseBlock (res_var : String) : String :=
  "\n        try \x7b\n            if (" ++ res_var ++ ".status === 201 || " ++ res_var
    ++ ".status === 200) \x7b\n                const body = " ++ res_var
    ++ ".json();\n                if (body && body.id) \x7b\n                    trackedValues['franchiseId'] = body.id;\n                    console.log(`Tracked franchiseId: $\x7bbody.id\x7d`);\n                \x7d else if (body && body.franchiseId) \x7b\n                    trackedValues['franchiseId'] = body.franchiseId;\n                    console.log(`Tracked franchiseId: $\x7bbody.franchiseId\x7d`);\n                \x7d\n            \x7d\n        \x7d catch (e) \x7b\n            // Response might not be JSON\n        \x7d"

/-- The path-parameter loop of `generate_value_tracker` (src lines 96-112):
for each placeholder name containing `id` or `franchise` (case-insensitive),
run the response-field heuristic and, when it yields an extractor, emit a
tracker block for it. -/
def trackLoop (operation : List (String × JVal)) (res_var : String) :
    List String → Option (List String)
  | [] => some []
  | param :: rest => do
    if containsS (pyLower param) "id" || containsS (pyLower param) "franchise" then
      let extractor ← find_response_value_extractor operation param
      let rest' ← trackLoop operation res_var rest
      match extractor with
      | some e =>
        if e ≠ "" then pure (idTrackBlock param res_var (extractorField e) :: rest')
        else pure rest'
      | none => pure rest'
    else
      trackLoop operation res_var rest

/-- `generate_value_tracker` (src lines 87-132): tracker blocks for POST/PUT
operations, plus the separate franchise capture block when the path contains
`franchise` (case-insensitive) and the method is POST; the blocks are joined
with newlines. -/
def generate_value_tracker (path : String) (operation : List (String × JVal))
    (res_var : String) : Option String := do
  let mstr ← (dgetD operation "method" (.str "")).getStr?
  let trackers ←
    if pyUpper mstr = "POST" ∨ pyUpper mstr = "PUT" then
      trackLoop operation res_var (extract_path_parameters path)
    else
      pure []
  pure (pyJoin "\n"
    (if containsS (pyLower path) "franchise" ∧ pyUpper mstr = "POST" then
      trackers ++ [franchiseBlock res_var]
    else trackers))

/-- The path slug of the derived operation id (src line 46):
`path.replace("/", "_").replace("\x7b", "").replace("\x7d", "")`. -/
def strippedPath (path : String) : String :=
  pyReplace (pyReplace (pyReplace path "/" "_") "\x7b" "") "\x7d" ""

/-- The fallback operation id (src line 46): the raw method key, `_`, and the
path slug. -/
def fallbackOperationId (method path : String) : String :=
  method ++ "_" ++ strippedPath path

/-- One extracted endpoint (src lines 42-48). -/
structure Endpoint where
  path : String
  method : String
  operation : List (String × JVal)
  operation_id : JVal
  base_url : JVal

/-- Python `self.spec.get('servers', [\x7b\x7d])[0]` (src lines 32 and 172):
indexing a present-but-empty list raises `IndexError` (`none`); indexing a
string yields its first character as a one-character string; indexing any
other non-list raises (`none`). -/
def getServersZero (spec : List (String × JVal)) : Option JVal :=
  match dgetD spec "servers" (.arr [.obj []]) with
  | .arr xs => xs.head?
  | .str s => (s.toList.head?).map (fun c => JVal.str (⟨[c]⟩ : String))
  | _ => none

/-- The base-url expression of src line 32:
`self.spec.get('servers', [\x7b\x7d])[0].get('url', 'http://localhost')`,
value kept raw as Python does. -/
def getBaseUrlRaw (spec : List (String × JVal)) : Option JVal := do
  let first ← getServersZero spec
  let ff ← first.getObj?
  pure (dgetD ff "url" (.str "http://localhost"))

/-- The same base-url expression as used on src line 172, where it is
concatenated with `+` to string literals, hence must be a `str`. -/
def getBaseUrlStr (spec : List (String × JVal)) : Option String := do
  let v ← getBaseUrlRaw spec
  v.getStr?

/-- The method loop of `parse_spec` (src lines 40-49): keys whose lower-case
form is one of the seven HTTP methods yield an endpoint; other keys are
ignored. -/
def parseMethods (path : String) (base_url : JVal) :
    List (String × JVal) → Option (List Endpoint)
  | [] => some []
  | (method, operation) :: rest =>
    if pyLower method ∈ ["get", "post", "put", "patch", "delete", "head", "options"] then do
      let opF ← operation.getObj?
      let opid := dgetD opF "operationId" (.str (fallbackOperationId method path))
      let rest' ← parseMethods path base_url rest
      pure (⟨path, pyUpper method, opF, opid, base_url⟩ :: rest')
    else
      parseMethods path base_url rest

/-- The path loop of `parse_spec` (src lines 34-49): any path containing the
substring `/admin` is skipped before its methods are examined. -/
def parsePaths (base_url : JVal) : List (String × JVal) → Option (List Endpoint)
  | [] => some []
  | (path, path_item) :: rest =>
    if containsS path "/admin" then parsePaths base_url rest
    else do
      let itemF ← path_item.getObj?
      let es ← parseMethods path base_url itemF
      let rest' ← parsePaths base_url rest
      pure (es ++ rest')

/-- `parse_spec` (src lines 29-49) as a function of the raw spec dict: the
ordered endpoint list it appends to `self.endpoints`.  Line 31's `paths`
lookup is a pure `.get` that cannot fail, so it commutes with the base-url
lookup of line 32, whose failure (`servers` present but empty) aborts before
any path is visited. -/
def parse_spec (spec : List (String × JVal)) : Option (List Endpoint) := do
  let base_url ← getBaseUrlRaw spec
  let pathsF ← (dgetD spec "paths" (.obj [])).getObj?
  parsePaths base_url pathsF

/-- Python `prop_schema.get('default')` combined with the
`default_value is not None` test of src line 267: an absent key and an
explicit `null` both count as "no default". -/
def pyDefault (pf : List (String × JVal)) : Option JVal :=
  match dget pf "default" with
  | some .null => none
  | x => x

/-- One iteration of the property loop of `generate_request_body` (src lines
263-285): `some (some line)` is an emitted body line, `some none` a silently
skipped property (no branch of the if/elif chain matched), `none` a raised
error. -/
def propEntry (prop_name : String) (prop_schema : JVal) : Option (Option String) := do
  let pf ← prop_schema.getObj?
  let prop_type := dgetD pf "type" (.str "string")
  match pyDefault pf with
  | some dv =>
    match dv with
    | .str s => pure (some ("        " ++ prop_name ++ ": '" ++ s ++ "'"))
    | v => pure (some ("        " ++ prop_name ++ ": " ++ pyStr v))
  | none =>
    match prop_type with
    | .str t =>
      if t = "string" then
        if containsS (pyLower prop_name) "id" || containsS (pyLower prop_name) "franchise" then
          pure (some ("        " ++ prop_name ++ ": trackedValues." ++ prop_name
            ++ " || trackedValues.franchiseId || '" ++ prop_name ++ "_value'"))
        else
          pure (some ("        " ++ prop_name ++ ": '" ++ prop_name ++ "_value'"))
      else if t = "integer" ∨ t = "number" then
        pure (some ("        " ++ prop_name ++ ": " ++ pyStr (dgetD pf "default" (.int 0))))
      else if t = "boolean" then
        pure (some ("        " ++ prop_name ++ ": " ++ pyStr (dgetD pf "default" (.bool false))))
      else if t = "array" then
        pure (some ("        " ++ prop_name ++ ": []"))
      else if t = "object" then
        pure (some ("        " ++ prop_name ++ ": \x7b\x7d"))
      else
        pure none
    | _ => pure none

/-- The property loop of `generate_request_body`, collecting emitted lines in
declaration order. -/
def collectBodyParts : List (String × JVal) → Option (List String)
  | [] => some []
  | (prop_name, prop_schema) :: rest => do
    let e ← propEntry prop_name prop_schema
    let es ← collectBodyParts rest
    pure (match e with | some s => s :: es | none => es)

/-- `generate_request_body` (src lines 257-289): the `const <var> = ...;`
text for a schema's properties, or the empty string when no line was emitted
(the `required` list is read but unused, as in the source). -/
def generate_request_body (schema : JVal) (var_name : String) : Option String := do
  let sf ← schema.getObj?
  let properties ← (dgetD sf "properties" (.obj [])).getObj?
  let _required := dgetD sf "required" (.arr [])
  let body_parts ← collectBodyParts properties
  if body_parts ≠ [] then
    pure ("    const " ++ var_name ++ " = \x7b\n" ++ pyJoin ",\n" body_parts
      ++ "\n    \x7d;")
  else
    pure ""

/-- The Authorization header line emitted for non-`/admin` paths (src line 195). -/
def authHeaderLine : String :=
  "        ...(authKey ? \x7b 'Authorization': `Bearer $\x7bauthKey\x7d` \x7d : \x7b\x7d),"

/-- The header block of one endpoint (src lines 190-197): Content-Type
always, Authorization exactly when the path does not contain `/admin`. -/
def headersCodeFor (i : Nat) (path : String) : List String :=
  ["    const headers" ++ toString i ++ " = \x7b",
   "        'Content-Type': 'application/json',"]
  ++ (if containsS path "/admin" then [] else [authHeaderLine])
  ++ ["    \x7d;"]

/-- The content-type fallback loop of src lines 207-210: the first content
entry whose lower-cased type contains `json` supplies the schema; otherwise
the schema stays as it was. -/
def findJsonSchema : List (String × JVal) → JVal → Option JVal
  | [], schema => some schema
  | (content_type, media_type) :: rest, schema =>
    if containsS (pyLower content_type) "json" then do
      let mf ← media_type.getObj?
      pure (dgetD mf "schema" (.obj []))
    else
      findJsonSchema rest schema

/-- Python `\x7b**operation, 'method': method\x7d` (src line 220): the
`method` key is updated in place when present, appended otherwise. -/
def mergeMethod (operation : List (String × JVal)) (m : String) :
    List (String × JVal) :=
  if operation.any (fun kv => kv.1 = "method") then
    operation.map (fun kv => if kv.1 = "method" then ("method", JVal.str m) else kv)
  else
    operation ++ [("method", JVal.str m)]

/-- The request-body synthesis of one endpoint block (src lines 200-216):
yields the body variable name (empty when no body) and the body code text. -/
def requestBodyFor (operation : List (String × JVal)) (method : String) (i : Nat) :
    Option (String × String) := do
  if method = "POST" ∨ method = "PUT" ∨ method = "PATCH" then
    let rbF ← (dgetD operation "requestBody" (.obj [])).getObj?
    let cF ← (dgetD rbF "content" (.obj [])).getObj?
    let ajF ← (dgetD cF "application/json" (.obj [])).getObj?
    let schema0 := dgetD ajF "schema" (.obj [])
    let schema ← if pyTruthy schema0 then pure schema0 else findJsonSchema cF schema0
    if pyTruthy schema then
      let code ← generate_request_body schema ("body" ++ toString i)
      pure (("body" ++ toString i), code)
    else
      pure ("", "")
  else
    pure ("", "")

/-- One endpoint's script fragment (src lines 178-246), as the list of
`script_parts` elements appended for it. -/
def endpointBlock (i : Nat) (e : Endpoint) : Option (List String) := do
  let resolved_path := replace_path_parameters e.path
  let url_code := "    const url" ++ toString i ++ " = baseUrl + `" ++ resolved_path ++ "`;"
  let headers_code := headersCodeFor i e.path
  let (request_body_var, request_body_code) ← requestBodyFor e.operation e.method i
  let res_var := "res" ++ toString i
  let tracker_code ← generate_value_tracker e.path (mergeMethod e.operation e.method) res_var
  let request_code :=
    if request_body_var ≠ "" then
      "\n    const res" ++ toString i ++ " = http." ++ pyLower e.method ++ "(url" ++ toString i
        ++ ", JSON.stringify(" ++ request_body_var ++ "), \x7b headers: headers" ++ toString i
        ++ " \x7d);"
    else
      "\n    const res" ++ toString i ++ " = http." ++ pyLower e.method ++ "(url" ++ toString i
        ++ ", null, \x7b headers: headers" ++ toString i ++ " \x7d);"
  let check_code :=
    "\n    const success" ++ toString i ++ " = check(res" ++ toString i
      ++ ", \x7b\n        'status is 2xx or 3xx': (r) => r.status >= 200 && r.status < 400,\n    \x7d);\n    errorRate.add(!success" ++ toString i ++ ");"
  pure (["",
         "    // " ++ pyStr e.operation_id ++ ": " ++ e.method ++ " " ++ e.path,
         url_code]
        ++ headers_code
        ++ [request_body_code, request_code, check_code, tracker_code])

/-- The endpoint loop of `generate_k6_script` (src line 178), with the
`enumerate` index. -/
def endpointBlocks (i : Nat) : List Endpoint → Option (List String)
  | [] => some []
  | e :: rest => do
    let b ← endpointBlock i e
    let bs ← endpointBlocks (i + 1) rest
    pure (b ++ bs)

/-- The fixed preamble of the generated script (src lines 148-175), given the
base url interpolated on line 172. -/
def preambleParts (base_url : String) : List String :=
  ["import http from 'k6/http';",
   "import \x7b check, sleep \x7d from 'k6';",
   "import \x7b Rate \x7d from 'k6/metrics';",
   "",
   "// Error rate metric",
   "const errorRate = new Rate('errors');",
   "",
   "// Shared state for tracked values across VUs",
   "const trackedValues = \x7b\x7d;",
   "",
   "export const options = \x7b",
   "    stages: [",
   "        \x7b duration: '30s', target: 10 \x7d,  // Ramp up",
   "        \x7b duration: '1m', target: 10 \x7d,   // Stay at 10 users",
   "        \x7b duration: '30s', target: 0 \x7d,   // Ramp down",
   "    ],",
   "    thresholds: \x7b",
   "        'http_req_duration': ['p(95)<500'],",
   "        'errors': ['rate<0.1'],",
   "    \x7d,",
   "\x7d;",
   "",
   "export default function () \x7b",
   "    const baseUrl = __ENV.BASE_URL || '" ++ base_url ++ "';",
   "    const authKey = __ENV.AUTH_KEY || null;",
   ""]

/-- `generate_k6_script` (src lines 146-255): preamble, one block per
endpoint in order, fixed trailer, all joined with newlines. -/
def generate_k6_script (spec : List (String × JVal)) (endpoints : List Endpoint) :
    Option String := do
  let base_url ← getBaseUrlStr spec
  let blocks ← endpointBlocks 0 endpoints
  pure (pyJoin "\n"
    (preambleParts base_url ++ blocks
      ++ ["", "    // Small sleep between requests", "    sleep(0.5);", "\x7d"]))

/-- The generator object (src lines 22-27): stored spec, stored auth key,
tracked-values dict (never read or written by the generator), and the
endpoint list that `parse_spec` appends to. -/
structure OpenAPIToK6 where
  spec : List (String × JVal)
  auth_key : Option String
  tracked_values : List (String × JVal)
  endpoints : List Endpoint

/-- `OpenAPIToK6.__init__` (src lines 23-27). -/
def OpenAPIToK6.init (spec : List (String × JVal)) (auth_key : Option String) :
    OpenAPIToK6 :=
  ⟨spec, auth_key, [], []⟩

/-- The stateful `parse_spec` method (src lines 29-49): appends the extracted
endpoints to `self.endpoints`. -/
def OpenAPIToK6.parseSpec (g : OpenAPIToK6) : Option OpenAPIToK6 :=
  (parse_spec g.spec).map (fun es => { g with endpoints := g.endpoints ++ es })

/-- `generate` (src lines 291-294): `parse_spec` then `generate_k6_script`. -/
def OpenAPIToK6.generate (g : OpenAPIToK6) : Option String := do
  let g' ← g.parseSpec
  generate_k6_script g'.spec g'.endpoints

/-- The full generation pipeline as run by `main` (src lines 352-353): a
fresh generator for the loaded spec and auth key, then `generate`. -/
def runPipeline (spec : List (String × JVal)) (auth_key : Option String) :
    Option String :=
  (OpenAPIToK6.init spec auth_key).generate

/-! ### Claim C1: the response-field extractor heuristic. -/

/-- A response schema value with an optional `type` field and a `properties`
dict, as `find_response_value_extractor` reads it. -/
def mkSchema (typ : Option JVal) (props : List (String × JVal)) : JVal :=
  .obj ((match typ with | some t => [("type", t)] | none => []) ++
    [("properties", .obj props)])

/-- A response whose only content entry is `application/json` carrying the
given schema. -/
def mkResponse (typ : Option JVal) (props : List (String × JVal)) : JVal :=
  .obj [("content", .obj [("application/json", .obj [("schema", mkSchema typ props)])])]

/-- The optional status entry of an operation's `responses` dict. -/
def optStatus (st : String) :
    Option (Option JVal × List (String × JVal)) → List (String × JVal)
  | none => []
  | some (t, ps) => [(st, mkResponse t ps)]

/-- An operation whose `responses` dict carries the given optional `200`,
`201`, `202` and `default` responses, each with one JSON schema. -/
def mkOperation (s200 s201 s202 sdef : Option (Option JVal × List (String × JVal))) :
    List (String × JVal) :=
  [("responses", .obj (optStatus "200" s200 ++ optStatus "201" s201 ++
    optStatus "202" s202 ++ optStatus "default" sdef))]

/-- The declared type of a built schema is the string `object`. -/
def typIsObjectOpt (typ : Option JVal) : Bool :=
  match typ with
  | some (.str t) => t = "object"
  | _ => false

/-- Transcription of the rule priority stated by claim C1: (1) a property
named exactly like the target parameter, else (2) a property named `id`,
else (3) when the schema type is `object`, the first property whose name
contains `id` case-insensitively. -/
def claimedRuleMatch (param : String) (typ : Option JVal)
    (props : List (String × JVal)) : Option String :=
  if props.any (fun kv => kv.1 = param) then some ("json." ++ param)
  else if props.any (fun kv => kv.1 = "id") then some "json.id"
  else if typIsObjectOpt typ then
    (props.find? (fun kv => containsS (pyLower kv.1) "id")).map
      (fun kv => "json." ++ kv.1)
  else none

/-- Transcription of the search order stated by claim C1: statuses are tried
in the given order and the first rule match wins; no match at all yields no
extractor. -/
def claimedSearch (param : String) :
    List (Option (Option JVal × List (String × JVal))) → Option String
  | [] => none
  | none :: rest => claimedSearch param rest
  | some (t, ps) :: rest =>
    match claimedRuleMatch param t ps with
    | some r => some r
    | none => claimedSearch param rest

/-- The concatenated optional status segments of a responses dict. -/
def respSegs : List (String × Option (Option JVal × List (String × JVal))) →
    List (String × JVal)
  | [] => []
  | (st, o) :: rest => optStatus st o ++ respSegs rest

/-! ### Claim C2: the franchise capture block. -/

/-- JavaScript truthiness of a parsed JSON value (empty arrays and objects
are truthy, unlike in Python). -/
def jsTruthy : JVal → Bool
  | .null => false
  | .bool b => b
  | .int n => n != 0
  | .str s => s ≠ ""
  | .arr _ => true
  | .obj _ => true

/-- JavaScript member access `v.k` on a parsed JSON value: a field of an
object, `undefined` (here `none`) otherwise. -/
def jsFieldOpt (v : JVal) (k : String) : Option JVal :=
  match v with
  | .obj fields => dget fields k
  | _ => none

/-- JavaScript truthiness where `undefined` is falsy. -/
def jsTruthyOpt : Option JVal → Bool
  | none => false
  | some v => jsTruthy v

/-- JavaScript property assignment `reg[k] = v`: update in place, else
append. -/
def regSet (reg : List (String × JVal)) (k : String) (v : JVal) :
    List (String × JVal) :=
  if reg.any (fun kv => kv.1 = k) then
    reg.map (fun kv => if kv.1 = k then (k, v) else kv)
  else
    reg ++ [(k, v)]

/-- Runtime semantics of the franchise capture block emitted at src lines
116-130, modelled from the emitted JavaScript text: on a 200/201 status,
parse the body; if `body && body.id` store `body.id` under the fixed key
`franchiseId`, else if `body && body.franchiseId` store that; a body that
failed to parse (the catch branch) leaves the registry unchanged. -/
def franchiseCaptureSemantics (status : Int) (body : Option JVal)
    (reg : List (String × JVal)) : List (String × JVal) :=
  if status = 201 ∨ status = 200 then
    match body with
    | none => reg
    | some b =>
      if jsTruthy b && jsTruthyOpt (jsFieldOpt b "id") then
        regSet reg "franchiseId" ((jsFieldOpt b "id").getD .null)
      else if jsTruthy b && jsTruthyOpt (jsFieldOpt b "franchiseId") then
        regSet reg "franchiseId" ((jsFieldOpt b "franchiseId").getD .null)
      else reg
  else reg

/-! ### Structure of extracted endpoints, shared by claims C4 and C5. -/

/-- The seven HTTP method keys recognized by `parse_spec`. -/
def httpMethods : List String :=
  ["get", "post", "put", "patch", "delete", "head", "options"]

/-- The post operation of the end-to-end example of claim C2: a `201`
response declaring an `id` property. -/
def postOpFields : List (String × JVal) :=
  [("responses", .obj [("201", .obj [("content", .obj [("application/json", .obj
    [("schema", .obj [("properties", .obj
      [("id", .obj [("type", .str "string")])])])])])])])]

/-- The end-to-end example spec of claim C2: an `/admin/users` GET and a
`/franchises` POST. -/
def specC2 : List (String × JVal) :=
  [("paths", .obj [("/admin/users", .obj [("get", .obj [])]),
    ("/franchises", .obj [("post", .obj postOpFields)])])]

/-- The example request-body schema of claim C3. -/
def schemaC3 : JVal :=
  .obj [("properties", .obj [("name", .obj [("type", .str "string")]),
    ("active", .obj [("type", .str "boolean"), ("default", .bool true)])])]

/-- The one-path spec of claim C4's counterexample. -/
def specC4 : List (String × JVal) :=
  [("paths", .obj [("/users", .obj [("get", .obj [])])])]

/-- The non-segment `/admin` substring example of claim C5. -/
def specC5 : List (String × JVal) :=
  [("paths", .obj [("/v1/admin-tools", .obj [("get", .obj [])])])]

/-- The unrecognized-type schema of claim C7's counterexample. -/
def schemaC7 : JVal :=
  .obj [("properties", .obj [("foo", .obj [("type", .str "weird")])])]

/-- The fuel of `replaceAllFuel` is irrelevant once it covers the input
length. -/
theorem replaceAllFuel_irrel (pat rep : List Char) : ∀ (f1 f2 : Nat) (s : List Char),
    s.length ≤ f1 → s.length ≤ f2 →
    replaceAllFuel pat rep f1 s = replaceAllFuel pat rep f2 s := by
  intro f1
  induction f1 with
  | zero =>
    intro f2 s hs1 _
    have : s = [] := List.eq_nil_of_length_eq_zero (Nat.le_zero.mp hs1)
    subst this
    cases f2 <;> rfl
  | succ g1 ih =>
    intro f2 s hs1 hs2
    cases s with
    | nil => cases f2 <;> rfl
    | cons c t =>
      cases f2 with
      | zero => exact absurd hs2 (by simp)
      | succ g2 =>
        show replaceAllFuel pat rep (g1 + 1) (c :: t) = _
        simp only [replaceAllFuel]
        simp only [List.length_cons] at hs1 hs2
        split
        · rename_i hpre
          have hdl : ((c :: t).drop pat.length).length ≤ t.length := by
            simp only [List.length_drop, List.length_cons]
            have hp : pat.length ≠ 0 := by
              intro h0
              exact hpre.1 (List.eq_nil_of_length_eq_zero h0)
            omega
          rw [ih g2 ((c :: t).drop pat.length) (by omega) (by omega)]
        · rw [ih g2 t (by omega) (by omega)]

/-- Unfolding equation of the replacement at the empty list. -/
theorem replaceAllL_nil_eq (pat rep : List Char) : replaceAllL pat rep [] = [] := rfl

/-- Unfolding equation of the replacement at a cons cell. -/
theorem replaceAllL_cons_eq (pat rep : List Char) (c : Char) (t : List Char) :
    replaceAllL pat rep (c :: t) =
    (if pat ≠ [] ∧ pat.isPrefixOf (c :: t) then
      rep ++ replaceAllL pat rep ((c :: t).drop pat.length)
    else
      c :: replaceAllL pat rep t) := by
  show replaceAllFuel pat rep (t.length + 1) (c :: t) = _
  simp only [replaceAllFuel]
  split
  · rename_i hpre
    have hdl : ((c :: t).drop pat.length).length ≤ t.length := by
      simp only [List.length_drop, List.length_cons]
      have hp : pat.length ≠ 0 := by
        intro h0
        exact hpre.1 (List.eq_nil_of_length_eq_zero h0)
      omega
    rw [replaceAllFuel_irrel pat rep t.length ((c :: t).drop pat.length).length
      ((c :: t).drop pat.length) hdl (le_refl _)]
    rfl
  · rw [replaceAllFuel_irrel pat rep t.length t.length t (le_refl _) (le_refl _)]
    rfl

/-- Helper bound for the termination of `findTokens`. -/
theorem len_tail_dropWhile_lt (p : Char → Bool) (c : Char) (l : List Char) :
    ((l.dropWhile p).tail).length < (c :: l).length := by
  have h1 : (l.dropWhile p).tail.length ≤ (l.dropWhile p).length := by
    simp [List.length_tail]
  have h2 : (l.dropWhile p).length ≤ l.length :=
    (List.dropWhile_sublist _).length_le
  simp only [List.length_cons]
  omega

/-- The fuel of `findTokensFuel` is irrelevant once it covers the input
length. -/
theorem findTokensFuel_irrel : ∀ (f1 f2 : Nat) (s : List Char),
    s.length ≤ f1 → s.length ≤ f2 → findTokensFuel f1 s = findTokensFuel f2 s := by
  intro f1
  induction f1 with
  | zero =>
    intro f2 s hs1 _
    have : s = [] := List.eq_nil_of_length_eq_zero (Nat.le_zero.mp hs1)
    subst this
    cases f2 <;> rfl
  | succ g1 ih =>
    intro f2 s hs1 hs2
    cases s with
    | nil => cases f2 <;> rfl
    | cons c rest =>
      cases f2 with
      | zero => exact absurd hs2 (by simp)
      | succ g2 =>
        show findTokensFuel (g1 + 1) (c :: rest) = findTokensFuel (g2 + 1) (c :: rest)
        simp only [findTokensFuel]
        simp only [List.length_cons] at hs1 hs2
        have hdt : ((rest.dropWhile wordChar).tail).length ≤ rest.length := by
          have := len_tail_dropWhile_lt wordChar c rest
          simp only [List.length_cons] at this
          omega
        split
        · rw [ih g2 ((rest.dropWhile wordChar).tail) (by omega) (by omega)]
        · rw [ih g2 rest (by omega) (by omega)]

/-- Unfolding equation of the scanner at the empty list. -/
theorem findTokens_nil_eq : findTokens [] = [] := rfl

/-- Unfolding equation of the scanner at a cons cell. -/
theorem findTokens_cons_eq (c : Char) (rest : List Char) :
    findTokens (c :: rest) =
    (if c = '\x7b' ∧ rest.takeWhile wordChar ≠ [] ∧
        (rest.dropWhile wordChar).head? = some '\x7d' then
      rest.takeWhile wordChar :: findTokens (rest.dropWhile wordChar).tail
    else
      findTokens rest) := by
  show findTokensFuel (rest.length + 1) (c :: rest) = _
  simp only [findTokensFuel]
  have hdt : ((rest.dropWhile wordChar).tail).length ≤ rest.length := by
    have := len_tail_dropWhile_lt wordChar c rest
    simp only [List.length_cons] at this
    omega
  split
  · rw [findTokensFuel_irrel rest.length ((rest.dropWhile wordChar).tail).length
      ((rest.dropWhile wordChar).tail) hdt (le_refl _)]
    rfl
  · rw [findTokensFuel_irrel rest.length rest.length rest (le_refl _) (le_refl _)]
    rfl

/-! ### Lemmas about `findTokens` and `replaceAllL`, used for claim C6. -/

/-- `Char.ofNat` of a valid code point round-trips through `toNat`. -/
theorem toNat_ofNat_valid (n : Nat) (h : n.isValidChar) : (Char.ofNat n).toNat = n := by
  unfold Char.ofNat
  rw [dif_pos h]
  rfl

/-- A word character stays distinct from any non-word character. -/
theorem wordChar_ne {c : Char} (h : wordChar c = true) {d : Char}
    (hd : wordChar d = false) : c ≠ d := by
  intro he
  subst he
  rw [h] at hd
  exact Bool.noConfusion hd

/-- Lower-casing a word character cannot produce an opening brace. -/
theorem toLower_ne_lbrace {c : Char} (h : wordChar c = true) :
    Char.toLower c ≠ '\x7b' := by
  intro he
  have hdef : Char.toLower c =
      if c.toNat ≥ 65 ∧ c.toNat ≤ 90 then Char.ofNat (c.toNat + 32) else c := rfl
  rw [hdef] at he
  split at he
  · rename_i hn
    have hv : (c.toNat + 32).isValidChar := by
      left
      omega
    have h1 : (Char.ofNat (c.toNat + 32)).toNat = c.toNat + 32 :=
      toNat_ofNat_valid _ hv
    rw [he] at h1
    have h2 : ('\x7b' : Char).toNat = 123 := by decide
    omega
  · exact wordChar_ne h (by decide) he

/-- Splitting an equation `A ++ B = X ++ c₀ :: Y` around a character that
does not occur in `A`: the marked character lies in `B`. -/
theorem split_of_not_mem {A B X Y : List Char} {c0 : Char}
    (h : A ++ B = X ++ c0 :: Y) (hc : c0 ∉ A) :
    ∃ X2, X = A ++ X2 ∧ B = X2 ++ c0 :: Y := by
  induction A generalizing X with
  | nil =>
    exact ⟨X, by simp, by simpa using h⟩
  | cons a A ih =>
    cases X with
    | nil =>
      simp only [List.nil_append] at h
      have : a = c0 := by
        have := congrArg (fun l => l.head?) h
        simpa using this
      exact absurd (this ▸ List.mem_cons_self a A) hc
    | cons x X =>
      simp only [List.cons_append, List.cons.injEq] at h
      obtain ⟨hax, hrest⟩ := h
      obtain ⟨X2, h1, h2⟩ := ih hrest (fun hm => hc (List.mem_cons_of_mem a hm))
      exact ⟨X2, by rw [hax, h1, List.cons_append], h2⟩

/-- `dropWhile` jumps over a block of characters that all satisfy `p`. -/
theorem dropWhile_append_all {p : Char → Bool} {A B : List Char}
    (h : ∀ c ∈ A, p c = true) : List.dropWhile p (A ++ B) = List.dropWhile p B := by
  induction A with
  | nil => rfl
  | cons a A ih =>
    simp only [List.cons_append, List.dropWhile_cons, h a (List.mem_cons_self a A)]
    exact ih (fun c hc => h c (List.mem_cons_of_mem a hc))

/-- `takeWhile` keeps a block of characters that all satisfy `p`. -/
theorem takeWhile_append_all {p : Char → Bool} {A B : List Char}
    (h : ∀ c ∈ A, p c = true) :
    List.takeWhile p (A ++ B) = A ++ List.takeWhile p B := by
  induction A with
  | nil => rfl
  | cons a A ih =>
    have ha := h a (List.mem_cons_self a A)
    have hA : ∀ c ∈ A, p c = true := fun c hc => h c (List.mem_cons_of_mem a hc)
    simp [List.cons_append, List.takeWhile_cons, ha, ih hA]

/-- No opening brace occurs in the part of the lookup expression after its
`$\x7b` head, provided the placeholder name consists of word characters. -/
theorem lbrace_not_mem_lookup_tail {w : List Char} (hw : ∀ c ∈ w, wordChar c = true) :
    '\x7b' ∉ ("trackedValues.".toList ++ (w ++ (" || trackedValues.".toList ++
      (w.map Char.toLower ++ (" || '".toList ++ (w ++ ('\'' :: ['\x7d']))))))) := by
  intro h
  rcases List.mem_append.mp h with h1 | h2
  · exact (by decide : '\x7b' ∉ "trackedValues.".toList) h1
  rcases List.mem_append.mp h2 with h3 | h4
  · exact absurd (hw _ h3) (by decide)
  rcases List.mem_append.mp h4 with h5 | h6
  · exact (by decide : '\x7b' ∉ " || trackedValues.".toList) h5
  rcases List.mem_append.mp h6 with h7 | h8
  · obtain ⟨a, ha, hae⟩ := List.mem_map.mp h7
    exact toLower_ne_lbrace (hw a ha) hae
  rcases List.mem_append.mp h8 with h9 | h10
  · exact (by decide : '\x7b' ∉ " || '".toList) h9
  rcases List.mem_append.mp h10 with h11 | h12
  · exact absurd (hw _ h11) (by decide)
  · exact (by decide : '\x7b' ∉ ('\'' :: ['\x7d'])) h12

/-- A placeholder token inside `lookupExpr w ++ res` lies entirely inside
`res`: the lookup expression neither contains one nor completes one at its
boundary. -/
theorem lookupExpr_boundary {w res x v y : List Char}
    (hw : ∀ c ∈ w, wordChar c = true) (hv : ∀ c ∈ v, wordChar c = true)
    (h : lookupExpr w ++ res = x ++ '\x7b' :: (v ++ '\x7d' :: y)) :
    ∃ x2, res = x2 ++ '\x7b' :: (v ++ '\x7d' :: y) := by
  rw [lookupExpr] at h
  simp only [List.cons_append] at h
  cases x with
  | nil =>
    rw [List.nil_append] at h
    exact absurd (List.head_eq_of_cons_eq h) (by decide)
  | cons a x1 =>
    rw [List.cons_append] at h
    have h2 := List.tail_eq_of_cons_eq h
    cases x1 with
    | nil =>
      rw [List.nil_append] at h2
      have h3 := List.tail_eq_of_cons_eq h2
      -- h3 : tail-of-lookup ++ res = v ++ '\x7d' :: y, contradiction via dropWhile
      have hshape : ("trackedValues.".toList ++ (w ++ (" || trackedValues.".toList ++
          (w.map Char.toLower ++ (" || '".toList ++ (w ++ ('\'' :: ['\x7d']))))))) ++ res =
          "trackedValues".toList ++ ('.' :: ((w ++ (" || trackedValues.".toList ++
          (w.map Char.toLower ++ (" || '".toList ++ (w ++ ('\'' :: ['\x7d'])))))) ++ res)) := by
        simp
      rw [hshape] at h3
      have hd := congrArg (List.dropWhile wordChar) h3
      rw [dropWhile_append_all (by decide), dropWhile_append_all hv] at hd
      rw [List.dropWhile_cons, List.dropWhile_cons] at hd
      simp only [(by decide : wordChar '.' = false), (by decide : wordChar '\x7d' = false)] at hd
      exact absurd (List.head_eq_of_cons_eq hd) (by decide)
    | cons b x2 =>
      have h3 := List.tail_eq_of_cons_eq h2
      obtain ⟨X2, _, hres⟩ := split_of_not_mem h3 (lbrace_not_mem_lookup_tail hw)
      exact ⟨X2, hres⟩

/-- If replacing a placeholder in `t` produces a text starting with a word
run and a closing brace, then `t` itself starts with that word run and
closing brace (the lookup expression starts with `$`, which is not a word
character). -/
theorem replaceAll_token_head {w : List Char} :
    ∀ n t, t.length ≤ n → ∀ v y2, (∀ c ∈ v, wordChar c = true) →
    replaceAllL (tokenOf w) (lookupExpr w) t = v ++ '\x7d' :: y2 →
    ∃ y3, t = v ++ '\x7d' :: y3 := by
  intro n
  induction n with
  | zero =>
    intro t ht v y2 _ h
    have : t = [] := List.eq_nil_of_length_eq_zero (Nat.le_zero.mp ht)
    subst this
    rw [replaceAllL_nil_eq] at h
    exact absurd h.symm (by simp)
  | succ n ih =>
    intro t ht v y2 hv h
    cases t with
    | nil =>
      rw [replaceAllL_nil_eq] at h
      exact absurd h.symm (by simp)
    | cons c t' =>
      rw [replaceAllL_cons_eq] at h
      split at h
      · -- replaced at the head: output starts with '$'
        rw [lookupExpr] at h
        cases v with
        | nil =>
          rw [List.nil_append] at h
          exact absurd (List.head_eq_of_cons_eq h).symm (by decide)
        | cons a v' =>
          rw [List.cons_append] at h
          have ha := (List.head_eq_of_cons_eq h).symm
          exact absurd ha (wordChar_ne (hv a (List.mem_cons_self a v')) (by decide))
      · cases v with
        | nil =>
          rw [List.nil_append] at h
          exact ⟨t', by rw [List.nil_append, List.head_eq_of_cons_eq h]⟩
        | cons a v' =>
          rw [List.cons_append] at h
          have hc := List.head_eq_of_cons_eq h
          have hrest := List.tail_eq_of_cons_eq h
          have hlen : t'.length ≤ n := by
            simp only [List.length_cons] at ht
            omega
          obtain ⟨y3, hy3⟩ := ih t' hlen v' y2
            (fun d hd => hv d (List.mem_cons_of_mem a hd)) hrest
          exact ⟨y3, by rw [hc, hy3, List.cons_append]⟩

/-- Replacing the placeholder of `w` removes every `\x7b w \x7d` token and
creates no token: any token left in the output was already in the input and
names a different parameter. -/
theorem replaceAll_removes {w : List Char} (hw : ∀ c ∈ w, wordChar c = true) :
    ∀ n r, r.length ≤ n → ∀ v x y, (∀ c ∈ v, wordChar c = true) →
    replaceAllL (tokenOf w) (lookupExpr w) r = x ++ '\x7b' :: (v ++ '\x7d' :: y) →
    v ≠ w ∧ ∃ x2 y2, r = x2 ++ '\x7b' :: (v ++ '\x7d' :: y2) := by
  intro n
  induction n with
  | zero =>
    intro r hr v x y _ h
    have : r = [] := List.eq_nil_of_length_eq_zero (Nat.le_zero.mp hr)
    subst this
    rw [replaceAllL_nil_eq] at h
    exact absurd h.symm (by simp)
  | succ n ih =>
    intro r hr v x y hv h
    cases r with
    | nil =>
      rw [replaceAllL_nil_eq] at h
      exact absurd h.symm (by simp)
    | cons c t =>
      rw [replaceAllL_cons_eq] at h
      split at h
      · -- the pattern is a prefix: the head of the output is the lookup text
        rename_i hpre
        obtain ⟨t2, ht2⟩ := List.isPrefixOf_iff_prefix.mp hpre.2
        rw [← ht2, List.drop_left] at h
        obtain ⟨x2, hx2⟩ := lookupExpr_boundary hw hv h
        have hlen : t2.length ≤ n := by
          have := congrArg List.length ht2
          simp only [List.length_append, List.length_cons, tokenOf] at this ⊢
          simp only [List.length_cons] at hr
          omega
        obtain ⟨hvw, x3, y3, ht3⟩ := ih t2 hlen v x2 y hv hx2
        refine ⟨hvw, tokenOf w ++ x3, y3, ?_⟩
        rw [← ht2, ht3]
        simp [List.append_assoc]
      · rename_i hpre
        cases x with
        | nil =>
          rw [List.nil_append] at h
          have hc := List.head_eq_of_cons_eq h
          have hrest := List.tail_eq_of_cons_eq h
          obtain ⟨y3, hy3⟩ := replaceAll_token_head t.length t (le_refl _) v y hv hrest
          have hvw : v ≠ w := by
            intro hvw
            subst hvw
            apply hpre
            constructor
            · simp [tokenOf]
            · apply List.isPrefixOf_iff_prefix.mpr
              refine ⟨y3, ?_⟩
              rw [hc, hy3]
              simp [tokenOf]
          exact ⟨hvw, [], y3, by rw [hc, hy3, List.nil_append]⟩
        | cons a x1 =>
          rw [List.cons_append] at h
          have hc := List.head_eq_of_cons_eq h
          have hrest := List.tail_eq_of_cons_eq h
          have hlen : t.length ≤ n := by
            simp only [List.length_cons] at hr
            omega
          obtain ⟨hvw, x3, y3, ht3⟩ := ih t hlen v x1 y hv hrest
          exact ⟨hvw, a :: x3, y3, by rw [hc, ht3, List.cons_append]⟩

/-- Every group captured by the scanner is a nonempty run of word characters. -/
theorem findTokens_mem_word : ∀ n s, s.length ≤ n → ∀ w, w ∈ findTokens s →
    w ≠ [] ∧ ∀ c ∈ w, wordChar c = true := by
  intro n
  induction n with
  | zero =>
    intro s hs w hw
    have : s = [] := List.eq_nil_of_length_eq_zero (Nat.le_zero.mp hs)
    subst this
    rw [findTokens_nil_eq] at hw
    exact absurd hw (List.not_mem_nil w)
  | succ n ih =>
    intro s hs w hw
    cases s with
    | nil =>
      rw [findTokens_nil_eq] at hw
      exact absurd hw (List.not_mem_nil w)
    | cons c rest =>
      rw [findTokens_cons_eq] at hw
      split at hw
      · rename_i hcond
        rcases List.mem_cons.mp hw with heq | hmem
        · subst heq
          exact ⟨hcond.2.1, fun d hd => List.mem_takeWhile_imp hd⟩
        · have hlt := len_tail_dropWhile_lt wordChar c rest
          simp only [List.length_cons] at hs hlt
          exact ih _ (by omega) w hmem
      · have : rest.length ≤ n := by
          simp only [List.length_cons] at hs
          omega
        exact ih rest this w hw

/-- If a string contains no placeholder token, the scanner finds nothing. -/
theorem findTokens_nil : ∀ n s, s.length ≤ n →
    (∀ v x y, s = x ++ '\x7b' :: (v ++ '\x7d' :: y) → v ≠ [] →
      (∀ c ∈ v, wordChar c = true) → False) →
    findTokens s = [] := by
  intro n
  induction n with
  | zero =>
    intro s hs _
    have : s = [] := List.eq_nil_of_length_eq_zero (Nat.le_zero.mp hs)
    subst this
    rw [findTokens_nil_eq]
  | succ n ih =>
    intro s hs h
    cases s with
    | nil => rw [findTokens_nil_eq]
    | cons c rest =>
      rw [findTokens_cons_eq]
      split
      · rename_i hcond
        exfalso
        obtain ⟨hc, hne, hhead⟩ := hcond
        cases hD : rest.dropWhile wordChar with
        | nil =>
          rw [hD] at hhead
          exact Option.noConfusion hhead
        | cons d dtail =>
          rw [hD] at hhead
          have hd : d = '\x7d' := by
            simpa using hhead
          subst hd
          have hrest : rest = rest.takeWhile wordChar ++ ('\x7d' :: dtail) := by
            conv_lhs => rw [← List.takeWhile_append_dropWhile wordChar rest]
            rw [hD]
          exact h (rest.takeWhile wordChar) [] dtail
            (by rw [List.nil_append, hc]; exact congrArg _ hrest) hne
            (fun d hd => List.mem_takeWhile_imp hd)
      · refine ih rest ?_ ?_
        · simp only [List.length_cons] at hs
          omega
        · intro v x y hxy hvne hv
          exact h v (c :: x) y (by rw [hxy, List.cons_append]) hvne hv

/-- Completeness of the scanner: every placeholder token of `s` has its name
among the captured groups. -/
theorem findTokens_complete : ∀ n s, s.length ≤ n → ∀ x v y,
    s = x ++ '\x7b' :: (v ++ '\x7d' :: y) → v ≠ [] →
    (∀ c ∈ v, wordChar c = true) → v ∈ findTokens s := by
  intro n
  induction n with
  | zero =>
    intro s hs x v y hsx _ _
    have : s = [] := List.eq_nil_of_length_eq_zero (Nat.le_zero.mp hs)
    subst this
    exact absurd hsx.symm (by simp)
  | succ n ih =>
    intro s hs x v y hsx hvne hv
    cases s with
    | nil => exact absurd hsx.symm (by simp)
    | cons c rest =>
      rw [findTokens_cons_eq]
      split
      · rename_i hcond
        obtain ⟨hc, hne, hhead⟩ := hcond
        cases hD : rest.dropWhile wordChar with
        | nil =>
          rw [hD] at hhead
          exact absurd hhead (by simp)
        | cons d dtail =>
          rw [hD] at hhead
          have hd : d = '\x7d' := by
            simpa using hhead
          subst hd
          have hrest : rest = rest.takeWhile wordChar ++ ('\x7d' :: dtail) := by
            conv_lhs => rw [← List.takeWhile_append_dropWhile wordChar rest]
            rw [hD]
          cases x with
          | nil =>
            rw [List.nil_append] at hsx
            have hrv : rest = v ++ '\x7d' :: y := List.tail_eq_of_cons_eq hsx
            have htv : rest.takeWhile wordChar = v := by
              rw [hrv, takeWhile_append_all hv, List.takeWhile_cons]
              simp [(by decide : wordChar '\x7d' = false)]
            rw [htv]
            exact List.mem_cons_self v _
          | cons a x1 =>
            have hrx : rest = x1 ++ '\x7b' :: (v ++ '\x7d' :: y) :=
              List.tail_eq_of_cons_eq hsx
            have hsplit := hrest.symm.trans hrx
            rcases List.append_eq_append_iff.mp hsplit with ⟨a', _, ha2⟩ | ⟨c', hc1, hc2⟩
            · cases a' with
              | nil =>
                rw [List.nil_append] at ha2
                exact absurd (List.head_eq_of_cons_eq ha2) (by decide)
              | cons b a'' =>
                rw [List.cons_append] at ha2
                have hdt : dtail = a'' ++ '\x7b' :: (v ++ '\x7d' :: y) :=
                  List.tail_eq_of_cons_eq ha2
                have hlt := len_tail_dropWhile_lt wordChar c rest
                rw [hD] at hlt
                simp only [List.length_cons, List.length_tail] at hs hlt
                exact List.mem_cons_of_mem _ (ih dtail (by omega) a'' v y hdt hvne hv)
            · cases c' with
              | nil =>
                rw [List.nil_append] at hc2
                exact absurd (List.head_eq_of_cons_eq hc2) (by decide)
              | cons b c'' =>
                have hb : b = '\x7b' := (List.head_eq_of_cons_eq hc2).symm
                subst hb
                have : wordChar '\x7b' = true :=
                  List.mem_takeWhile_imp (hc1 ▸ (List.mem_append.mpr
                    (Or.inr (List.mem_cons_self _ _))))
                exact absurd this (by decide)
      · rename_i hcond
        cases x with
        | nil =>
          exfalso
          apply hcond
          rw [List.nil_append] at hsx
          have hrv : rest = v ++ '\x7d' :: y := List.tail_eq_of_cons_eq hsx
          refine ⟨List.head_eq_of_cons_eq hsx, ?_, ?_⟩
          · rw [hrv, takeWhile_append_all hv, List.takeWhile_cons]
            simpa [(by decide : wordChar '\x7d' = false)] using hvne
          · rw [hrv, dropWhile_append_all hv, List.dropWhile_cons]
            simp [(by decide : wordChar '\x7d' = false)]
        | cons a x1 =>
          have hrx : rest = x1 ++ '\x7b' :: (v ++ '\x7d' :: y) :=
            List.tail_eq_of_cons_eq hsx
          have : rest.length ≤ n := by
            simp only [List.length_cons] at hs
            omega
          exact ih rest this x1 v y hrx hvne hv

/-- Invariant of the replacement fold: if every token of `r` names a
parameter of the worklist, then after replacing the whole worklist no token
remains. -/
theorem foldl_no_tokens :
    ∀ ws : List (List Char), ∀ r, (∀ w ∈ ws, ∀ c ∈ w, wordChar c = true) →
    (∀ v x y, r = x ++ '\x7b' :: (v ++ '\x7d' :: y) → v ≠ [] →
      (∀ c ∈ v, wordChar c = true) → v ∈ ws) →
    ∀ v x y,
      List.foldl (fun r w => replaceAllL (tokenOf w) (lookupExpr w) r) r ws =
        x ++ '\x7b' :: (v ++ '\x7d' :: y) →
      v ≠ [] → (∀ c ∈ v, wordChar c = true) → False := by
  intro ws
  induction ws with
  | nil =>
    intro r _ hbase v x y h hne hv
    rw [List.foldl_nil] at h
    exact absurd (hbase v x y h hne hv) (List.not_mem_nil v)
  | cons w ws ih =>
    intro r hws hbase v x y h hne hv
    rw [List.foldl_cons] at h
    refine ih (replaceAllL (tokenOf w) (lookupExpr w) r)
      (fun w' hw' => hws w' (List.mem_cons_of_mem w hw')) ?_ v x y h hne hv
    intro v' x' y' h' hne' hv'
    obtain ⟨hvw, x2, y2, hr⟩ :=
      replaceAll_removes (hws w (List.mem_cons_self w ws)) r.length r (le_refl _)
        v' x' y' hv' h'
    exact (List.mem_cons.mp (hbase v' x2 y2 hr hne' hv')).resolve_left hvw

/-- After `replace_path_parameters`, no `\x7b name \x7d` placeholder token
remains: re-running the extractor on the result finds nothing. -/
theorem replace_path_parameters_no_tokens (path : String) :
    extract_path_parameters (replace_path_parameters path) = [] := by
  have hmain : findTokens ((findTokens path.toList).foldl
      (fun r w => replaceAllL (tokenOf w) (lookupExpr w) r) path.toList) = [] := by
    apply findTokens_nil _ _ (le_refl _)
    intro v x y h hne hv
    exact foldl_no_tokens (findTokens path.toList) path.toList
      (fun w hw c hc =>
        (findTokens_mem_word path.toList.length path.toList (le_refl _) w hw).2 c hc)
      (fun v' x' y' h' hne' hv' =>
        findTokens_complete path.toList.length path.toList (le_refl _) x' v' y' h' hne' hv')
      v x y h hne hv
  unfold extract_path_parameters replace_path_parameters
  rw [show (String.toList ⟨(findTokens path.toList).foldl
      (fun r w => replaceAllL (tokenOf w) (lookupExpr w) r) path.toList⟩) =
      (findTokens path.toList).foldl
      (fun r w => replaceAllL (tokenOf w) (lookupExpr w) r) path.toList from rfl]
  rw [hmain]
  rfl

/-- `dget` steps through one binding. -/
theorem dget_cons (k' : String) (v : JVal) (rest : List (String × JVal)) (k : String) :
    dget ((k', v) :: rest) k = if k' = k then some v else dget rest k := by
  by_cases h : k' = k
  · simp [dget, List.find?_cons, h]
  · simp [dget, List.find?_cons, h]

/-- The schema check on a built schema agrees with the claimed rule match. -/
theorem checkSchema_mk (t : Option JVal) (ps : List (String × JVal)) (param : String) :
    checkSchema (mkSchema t ps) param = some (claimedRuleMatch param t ps) := by
  rcases t with _ | tv
  · simp [checkSchema, mkSchema, claimedRuleMatch, typIsObjectOpt, JVal.getObj?,
      dgetD, dget, pyIn, typeIsObject, List.find?_cons]
    split_ifs <;> simp
  · simp [checkSchema, mkSchema, claimedRuleMatch, typIsObjectOpt, JVal.getObj?,
      dgetD, dget, pyIn, typeIsObject, List.find?_cons]
    split_ifs <;> simp

/-- The content loop on a single `application/json` entry agrees with the
claimed rule match. -/
theorem checkContent_mk (t : Option JVal) (ps : List (String × JVal)) (param : String) :
    checkContent param [("application/json", .obj [("schema", mkSchema t ps)])] =
      some (claimedRuleMatch param t ps) := by
  have h := checkSchema_mk t ps param
  simp [checkContent, JVal.getObj?, dgetD, dget, List.find?_cons,
    (by decide : containsS (pyLower "application/json") "json" = true), h]
  cases claimedRuleMatch param t ps <;> simp

/-- A status code missing from the responses dict is skipped. -/
theorem checkStatuses_absent {R : List (String × JVal)} {param st : String}
    {rest : List String} (h : dget R st = none) :
    checkStatuses R param (st :: rest) = checkStatuses R param rest := by
  simp only [checkStatuses, dgetD, h]
  simp [dget, JVal.getObj?, checkContent]

/-- A status code present with a built response either resolves by the
claimed rule match or falls through to the remaining statuses. -/
theorem checkStatuses_present {R : List (String × JVal)} {param st : String}
    {rest : List String} {t : Option JVal} {ps : List (String × JVal)}
    (h : dget R st = some (mkResponse t ps)) :
    checkStatuses R param (st :: rest) =
      (match claimedRuleMatch param t ps with
       | some r => some (some r)
       | none => checkStatuses R param rest) := by
  have hc := checkContent_mk t ps param
  simp only [checkStatuses, dgetD, h]
  simp only [mkResponse, JVal.getObj?, Option.getD_some, Option.some_bind, dget,
    List.find?_cons]
  simp [hc]

/-- A key bound by no segment is absent from the concatenation. -/
theorem dget_respSegs_not_mem :
    ∀ L : List (String × Option (Option JVal × List (String × JVal))), ∀ k,
    (∀ e ∈ L, e.1 ≠ k) → dget (respSegs L) k = none := by
  intro L
  induction L with
  | nil => intro k _; rfl
  | cons e rest ih =>
    obtain ⟨st, o⟩ := e
    intro k h
    cases o with
    | none => exact ih k (fun e he => h e (List.mem_cons_of_mem _ he))
    | some tp =>
      obtain ⟨t, ps⟩ := tp
      show dget ((st, mkResponse t ps) :: respSegs rest) k = none
      rw [dget_cons, if_neg (h (st, some (t, ps)) (List.mem_cons_self _ _))]
      exact ih k (fun e he => h e (List.mem_cons_of_mem _ he))

/-- `checkStatuses` only consults the responses dict through `dget` at the
listed statuses. -/
theorem checkStatuses_congr {R R' : List (String × JVal)} {param : String} :
    ∀ sts, (∀ st ∈ sts, dget R st = dget R' st) →
    checkStatuses R param sts = checkStatuses R' param sts := by
  intro sts
  induction sts with
  | nil => intro _; rfl
  | cons st rest ih =>
    intro h
    have hh := h st (List.mem_cons_self st rest)
    simp only [checkStatuses, dgetD, hh]
    rw [ih (fun st' hst' => h st' (List.mem_cons_of_mem st hst'))]

/-- The status loop over distinct statuses with built responses follows the
claimed search order. -/
theorem checkStatuses_resp (param : String) :
    ∀ L : List (String × Option (Option JVal × List (String × JVal))),
    (L.map Prod.fst).Nodup →
    checkStatuses (respSegs L) param (L.map Prod.fst) =
      some (claimedSearch param (L.map Prod.snd)) := by
  intro L
  induction L with
  | nil => intro _; rfl
  | cons e rest ih =>
    obtain ⟨st, o⟩ := e
    intro hnd
    rw [List.map_cons] at hnd
    have hnotmem := (List.nodup_cons.mp hnd).1
    have hndrest := (List.nodup_cons.mp hnd).2
    cases o with
    | none =>
      have habs : dget (respSegs ((st, none) :: rest)) st = none := by
        show dget (respSegs rest) st = none
        apply dget_respSegs_not_mem
        intro e he hek
        exact hnotmem (List.mem_map.mpr ⟨e, he, hek⟩)
      rw [List.map_cons, checkStatuses_absent habs]
      exact ih hndrest
    | some tp =>
      obtain ⟨t, ps⟩ := tp
      have hself : dget (respSegs ((st, some (t, ps)) :: rest)) st =
          some (mkResponse t ps) := by
        show dget ((st, mkResponse t ps) :: respSegs rest) st = _
        rw [dget_cons, if_pos rfl]
      rw [List.map_cons, checkStatuses_present hself]
      cases hr : claimedRuleMatch param t ps with
      | some r => simp [claimedSearch, hr]
      | none =>
        simp only [List.map_cons, claimedSearch, hr]
        have hcongr : checkStatuses (respSegs ((st, some (t, ps)) :: rest)) param
            (rest.map Prod.fst) =
            checkStatuses (respSegs rest) param (rest.map Prod.fst) := by
          apply checkStatuses_congr
          intro st' hst'
          show dget ((st, mkResponse t ps) :: respSegs rest) st' = _
          rw [dget_cons, if_neg]
          intro he
          exact hnotmem (he ▸ hst')
        rw [hcongr, ih hndrest]

/-- The response-field extractor on a built operation equals the search
described by claim C1. -/
theorem frve_mk (s200 s201 s202 sdef : Option (Option JVal × List (String × JVal)))
    (param : String) :
    find_response_value_extractor (mkOperation s200 s201 s202 sdef) param =
      some (claimedSearch param [s200, s201, s202, sdef]) := by
  have h := checkStatuses_resp param
    [("200", s200), ("201", s201), ("202", s202), ("default", sdef)] (by simp)
  simp only [List.map_cons, List.map_nil] at h
  have hr : respSegs [("200", s200), ("201", s201), ("202", s202), ("default", sdef)] =
      optStatus "200" s200 ++ (optStatus "201" s201 ++ (optStatus "202" s202 ++
        optStatus "default" sdef)) := by
    simp [respSegs]
  rw [hr] at h
  simpa [find_response_value_extractor, mkOperation, dgetD, dget, List.find?_cons,
    JVal.getObj?] using h

/-- Looking up the key just updated in place finds the new value. -/
theorem dget_map_set : ∀ (reg : List (String × JVal)) (k : String) (v : JVal),
    reg.any (fun kv => kv.1 = k) = true →
    dget (reg.map (fun kv => if kv.1 = k then (k, v) else kv)) k = some v := by
  intro reg k v h
  induction reg with
  | nil => simp at h
  | cons a as ih =>
    by_cases ha : a.1 = k
    · simp [dget, List.find?_cons, ha]
    · simp only [List.any_cons, Bool.or_eq_true, decide_eq_true_eq] at h
      have has := h.resolve_left ha
      simp only [List.map_cons, if_neg ha]
      rw [show dget (a :: List.map (fun kv => if kv.1 = k then (k, v) else kv) as) k =
        dget (List.map (fun kv => if kv.1 = k then (k, v) else kv) as) k from ?_]
      · exact ih has
      · obtain ⟨a1, a2⟩ := a
        rw [dget_cons, if_neg ha]

/-- Looking up a key absent from the prefix finds the appended binding. -/
theorem dget_append_new : ∀ (reg : List (String × JVal)) (k : String) (v : JVal),
    reg.any (fun kv => kv.1 = k) = false →
    dget (reg ++ [(k, v)]) k = some v := by
  intro reg k v h
  induction reg with
  | nil => simp [dget, List.find?_cons]
  | cons a as ih =>
    simp only [List.any_cons, Bool.or_eq_false_iff, decide_eq_false_iff_not] at h
    obtain ⟨a1, a2⟩ := a
    rw [List.cons_append, dget_cons, if_neg h.1]
    exact ih (by simpa using h.2)

/-- `regSet` makes the stored value visible under its key. -/
theorem dget_regSet (reg : List (String × JVal)) (k : String) (v : JVal) :
    dget (regSet reg k v) k = some v := by
  unfold regSet
  by_cases h : reg.any (fun kv => kv.1 = k)
  · rw [if_pos h]
    exact dget_map_set reg k v h
  · rw [if_neg h]
    exact dget_append_new reg k v (Bool.eq_false_iff.mpr h)

/-- A pattern is found inside any text that ends with it. -/
theorem isInfixL_append_self : ∀ (A pat : List Char), isInfixL pat (A ++ pat) = true := by
  intro A pat
  induction A with
  | nil =>
    cases pat with
    | nil => rfl
    | cons c t =>
      simp only [List.nil_append, isInfixL, Bool.or_eq_true]
      exact Or.inl (List.isPrefixOf_iff_prefix.mpr List.prefix_rfl)
  | cons a A ih =>
    simp only [List.cons_append, isInfixL, Bool.or_eq_true]
    exact Or.inr ih

/-- A string that ends with `pat` contains `pat`. -/
theorem containsS_append_self (pre pat : String) : containsS (pre ++ pat) pat = true := by
  unfold containsS
  rw [show (pre ++ pat).toList = pre.toList ++ pat.toList from String.data_append pre pat]
  exact isInfixL_append_self pre.toList pat.toList

/-- A Python join of a list ending in `b` ends with `b`. -/
theorem pyJoin_ends_with (sep : String) (l : List String) (b : String) :
    ∃ pre, pyJoin sep (l ++ [b]) = pre ++ b := by
  cases l with
  | nil =>
    refine ⟨"", ?_⟩
    show b = "" ++ b
    cases b
    rfl
  | cons p l' =>
    show ∃ pre, (l' ++ [b]).foldl (fun acc x => acc ++ sep ++ x) p = pre ++ b
    rw [List.foldl_append]
    exact ⟨(l'.foldl (fun acc x => acc ++ sep ++ x) p) ++ sep, by simp [String.append_assoc]⟩

/-- Every endpoint built by the method loop records the looped path and base
url, and comes from some recognized method key of the path item, with the
operation id read from the operation or derived as the fallback. -/
theorem parseMethods_mem :
    ∀ (path : String) (burl : JVal) (items : List (String × JVal)) es,
    parseMethods path burl items = some es → ∀ e ∈ es,
    e.path = path ∧ e.base_url = burl ∧ ∃ m op, (m, op) ∈ items ∧
      pyLower m ∈ httpMethods ∧ op.getObj? = some e.operation ∧
      e.method = pyUpper m ∧
      e.operation_id = dgetD e.operation "operationId"
        (.str (fallbackOperationId m path)) := by
  intro path burl items
  induction items with
  | nil =>
    intro es h e he
    simp only [parseMethods] at h
    obtain rfl : ([] : List Endpoint) = es := Option.some.inj h
    exact absurd he (List.not_mem_nil e)
  | cons mo rest ih =>
    obtain ⟨m, op⟩ := mo
    intro es h e he
    rw [parseMethods] at h
    split at h
    · rename_i hm
      cases hop : op.getObj? with
      | none => rw [hop] at h; exact Option.noConfusion h
      | some opF =>
        rw [hop] at h
        cases hrest : parseMethods path burl rest with
        | none => rw [hrest] at h; simp at h
        | some es' =>
          rw [hrest] at h
          obtain rfl : (⟨path, pyUpper m, opF,
              dgetD opF "operationId" (JVal.str (fallbackOperationId m path)),
              burl⟩ : Endpoint) :: es' = es := Option.some.inj h
          rcases List.mem_cons.mp he with rfl | hmem
          · refine ⟨rfl, rfl, m, op, List.mem_cons_self _ _, hm, hop, rfl, rfl⟩
          · obtain ⟨h1, h2, m', op', hmo', rest'⟩ := ih es' hrest e hmem
            exact ⟨h1, h2, m', op', List.mem_cons_of_mem _ hmo', rest'⟩
    · obtain ⟨h1, h2, m', op', hmo', rest'⟩ := ih es h e he
      exact ⟨h1, h2, m', op', List.mem_cons_of_mem _ hmo', rest'⟩

/-- Every endpoint produced by the path loop has a path free of `/admin` and
satisfies the method-loop facts for its own path. -/
theorem parsePaths_mem :
    ∀ (burl : JVal) (pathsF : List (String × JVal)) es,
    parsePaths burl pathsF = some es → ∀ e ∈ es,
    containsS e.path "/admin" = false ∧ e.base_url = burl ∧
    ∃ (m : String) (op : JVal),
      pyLower m ∈ httpMethods ∧ op.getObj? = some e.operation ∧
      e.method = pyUpper m ∧
      e.operation_id = dgetD e.operation "operationId"
        (.str (fallbackOperationId m e.path)) := by
  intro burl pathsF
  induction pathsF with
  | nil =>
    intro es h e he
    simp only [parsePaths] at h
    obtain rfl : ([] : List Endpoint) = es := Option.some.inj h
    exact absurd he (List.not_mem_nil e)
  | cons pi rest ih =>
    obtain ⟨path, item⟩ := pi
    intro es h e he
    rw [parsePaths] at h
    split at h
    · exact ih es h e he
    · rename_i hadm
      cases hitem : item.getObj? with
      | none => rw [hitem] at h; exact Option.noConfusion h
      | some itemF =>
        rw [hitem] at h
        simp only [Option.bind_eq_bind, Option.some_bind] at h
        cases hes1 : parseMethods path burl itemF with
        | none =>
          rw [hes1] at h
          simp only [Option.bind_eq_bind, Option.none_bind] at h
          exact Option.noConfusion h
        | some es1 =>
          rw [hes1] at h
          simp only [Option.bind_eq_bind, Option.some_bind] at h
          cases hrest : parsePaths burl rest with
          | none =>
            rw [hrest] at h
            simp only [Option.bind_eq_bind, Option.none_bind] at h
            exact Option.noConfusion h
          | some es2 =>
            rw [hrest] at h
            obtain rfl : es1 ++ es2 = es := Option.some.inj h
            rcases List.mem_append.mp he with hmem | hmem
            · obtain ⟨hp, hb, m, op, _, hm, hop, hmeth, hopid⟩ :=
                parseMethods_mem path burl itemF es1 hes1 e hmem
              refine ⟨?_, hb, m, op, hm, hop, hmeth, by rw [hp]; exact hopid⟩
              rw [hp]
              exact Bool.eq_false_iff.mpr hadm
            · exact ih es2 hrest e hmem

/-- Every endpoint extracted by `parse_spec` has a path free of `/admin`,
and its operation id is the raw value when declared, else the derived
fallback. -/
theorem parse_spec_mem (spec : List (String × JVal)) (es : List Endpoint)
    (h : parse_spec spec = some es) : ∀ e ∈ es,
    containsS e.path "/admin" = false ∧ ∃ m,
      pyLower m ∈ httpMethods ∧ e.method = pyUpper m ∧
      e.operation_id = dgetD e.operation "operationId"
        (.str (fallbackOperationId m e.path)) := by
  intro e he
  rw [parse_spec] at h
  cases hb : getBaseUrlRaw spec with
  | none =>
    rw [hb] at h
    simp only [Option.bind_eq_bind, Option.none_bind] at h
    exact Option.noConfusion h
  | some burl =>
    rw [hb] at h
    simp only [Option.bind_eq_bind, Option.some_bind] at h
    cases hp : (dgetD spec "paths" (.obj [])).getObj? with
    | none =>
      rw [hp] at h
      simp only [Option.bind_eq_bind, Option.none_bind] at h
      exact Option.noConfusion h
    | some pathsF =>
      rw [hp] at h
      simp only [Option.bind_eq_bind, Option.some_bind] at h
      obtain ⟨hadm, _, m, _, hm, _, hmeth, hopid⟩ :=
        parsePaths_mem burl pathsF es h e he
      exact ⟨hadm, m, hm, hmeth, hopid⟩

/-- A property with no declared type and no default takes the `string`
branch of the body synthesizer. -/
theorem propEntry_absent_type (name : String) (pf : List (String × JVal))
    (ht : dget pf "type" = none) (hd : pyDefault pf = none) :
    propEntry name (.obj pf) = some (some (
      if containsS (pyLower name) "id" || containsS (pyLower name) "franchise" then
        "        " ++ name ++ ": trackedValues." ++ name
          ++ " || trackedValues.franchiseId || '" ++ name ++ "_value'"
      else
        "        " ++ name ++ ": '" ++ name ++ "_value'")) := by
  simp only [propEntry, JVal.getObj?, Option.bind_eq_bind, Option.some_bind,
    dgetD, ht, hd, Option.getD_none]
  split_ifs <;> simp_all

/-- A property whose declared type is a string outside the recognized set,
with no default, is silently dropped by the body synthesizer. -/
theorem propEntry_unrecognized (name : String) (pf : List (String × JVal))
    (t : String) (ht : dget pf "type" = some (.str t))
    (hne : t ∉ ["string", "integer", "number", "boolean", "array", "object"])
    (hd : pyDefault pf = none) :
    propEntry name (.obj pf) = some none := by
  have h1 : ¬t = "string" := fun he => hne (by rw [he]; simp)
  have h2 : ¬t = "integer" := fun he => hne (by rw [he]; simp)
  have h3 : ¬t = "number" := fun he => hne (by rw [he]; simp)
  have h4 : ¬t = "boolean" := fun he => hne (by rw [he]; simp)
  have h5 : ¬t = "array" := fun he => hne (by rw [he]; simp)
  have h6 : ¬t = "object" := fun he => hne (by rw [he]; simp)
  simp [propEntry, JVal.getObj?, dgetD, ht, hd, h1, h2, h3, h4, h5, h6]

/-- A property whose declared type is not a string at all, with no default,
is silently dropped by the body synthesizer. -/
theorem propEntry_nonstring_type (name : String) (pf : List (String × JVal))
    (v : JVal) (ht : dget pf "type" = some v) (hv : v.getStr? = none)
    (hd : pyDefault pf = none) :
    propEntry name (.obj pf) = some none := by
  cases v with
  | str s => exact absurd hv (by simp [JVal.getStr?])
  | null => simp [propEntry, JVal.getObj?, dgetD, ht, hd]
  | bool b => simp [propEntry, JVal.getObj?, dgetD, ht, hd]
  | int n => simp [propEntry, JVal.getObj?, dgetD, ht, hd]
  | arr xs => simp [propEntry, JVal.getObj?, dgetD, ht, hd]
  | obj fs => simp [propEntry, JVal.getObj?, dgetD, ht, hd]

/-- The Authorization line differs from the header-open line for every
endpoint index (their fifth characters differ). -/
theorem authLine_ne_open (i : Nat) :
    authHeaderLine ≠ "    const headers" ++ toString i ++ " = \x7b" := by
  intro h
  have hd := congrArg String.data h
  rw [String.data_append, String.data_append] at hd
  have h5 := congrArg (fun l : List Char => l.take 5) hd
  have hl : authHeaderLine.data.take 5 = [' ', ' ', ' ', ' ', ' '] := rfl
  have hr : ("    const headers".data ++ ((toString i).data ++ " = \x7b".data)).take 5 =
      [' ', ' ', ' ', ' ', 'c'] := rfl
  simp only [hl, hr] at h5
  simp at h5

/-- Claim C1: for every operation and target parameter, the response-field
extractor searches the status codes `200`, `201`, `202`, `default` in that
fixed order and, within a JSON content schema, returns the first match of
(1) a property named like the target parameter, (2) a property named
exactly `id`, (3) for `object`-typed schemas the first property whose name
contains `id` case-insensitively, and returns no extractor when no status
matches; in particular a `201` response schema with properties `id` and
`name` and target parameter `itemId` yields the selector for the `id`
field (rule 2). -/
theorem claim_C1 :
    (∀ (s200 s201 s202 sdef : Option (Option JVal × List (String × JVal)))
      (param : String),
      find_response_value_extractor (mkOperation s200 s201 s202 sdef) param =
        some (claimedSearch param [s200, s201, s202, sdef])) ∧
    find_response_value_extractor
      (mkOperation none
        (some (none, [("id", .obj [("type", .str "string")]),
                      ("name", .obj [("type", .str "string")])]))
        none none) "itemId" = some (some "json.id") :=
  ⟨frve_mk, rfl⟩

/-- Claim C3 (code bug): on the schema with `name : string` and
`active : boolean` with default `true`, the synthesized body renders the
boolean default with Python's capitalized `True`, not the JavaScript
literal `true` the specification promises. -/
theorem claim_C3 :
    generate_request_body schemaC3 "body0" =
      some "    const body0 = \x7b\n        name: 'name_value',\n        active: True\n    \x7d;" ∧
    containsS "    const body0 = \x7b\n        name: 'name_value',\n        active: True\n    \x7d;"
      "active: True" = true ∧
    containsS "    const body0 = \x7b\n        name: 'name_value',\n        active: True\n    \x7d;"
      "active: true" = false :=
  ⟨rfl, rfl, rfl⟩

/-- Claim C5: extraction produces no endpoint whose path contains `/admin`
(a blanket substring test, so `/v1/admin-tools` yields no endpoint either),
and the per-endpoint header block contains the Authorization construction
exactly for paths not containing `/admin`. -/
theorem claim_C5 :
    (∀ (spec : List (String × JVal)) (es : List Endpoint),
      parse_spec spec = some es → ∀ e ∈ es, containsS e.path "/admin" = false) ∧
    (∀ (i : Nat) (path : String), containsS path "/admin" = false →
      authHeaderLine ∈ headersCodeFor i path) ∧
    (∀ (i : Nat) (path : String), containsS path "/admin" = true →
      authHeaderLine ∉ headersCodeFor i path) ∧
    parse_spec specC5 = some [] := by
  refine ⟨?_, ?_, ?_, rfl⟩
  · intro spec es h e he
    exact (parse_spec_mem spec es h e he).1
  · intro i path h
    simp [headersCodeFor, h]
  · intro i path h
    simp only [headersCodeFor, h, if_true]
    intro hmem
    rcases List.mem_cons.mp hmem with h1 | hmem
    · exact authLine_ne_open i h1
    rcases List.mem_cons.mp hmem with h2 | hmem
    · exact absurd h2 (by decide)
    rcases List.mem_cons.mp hmem with h3 | hmem
    · exact absurd h3 (by decide)
    · exact absurd hmem (List.not_mem_nil _)

/-- Witness for claim C5 at concrete inputs. -/
theorem claim_C5_witness :
    (∀ e ∈ ([] : List Endpoint), containsS e.path "/admin" = false) ∧
    authHeaderLine ∈ headersCodeFor 0 "/users" ∧
    authHeaderLine ∉ headersCodeFor 7 "/admin/users" :=
  ⟨claim_C5.1 specC5 [] rfl, claim_C5.2.1 0 "/users" rfl,
    claim_C5.2.2.1 7 "/admin/users" rfl⟩

set_option maxRecDepth 8192 in
/-- Claim C6: each placeholder is replaced by the runtime lookup expression
trying the exact name, then the lower-cased name, then the literal name,
and for every input path the resolved output contains no unresolved
placeholder token. -/
theorem claim_C6 :
    (∀ path : String,
      extract_path_parameters (replace_path_parameters path) = []) ∧
    replace_path_parameters "/franchises/\x7bfranchiseId\x7d/items/\x7bitemId\x7d" =
      "/franchises/$\x7btrackedValues.franchiseId || trackedValues.franchiseid || 'franchiseId'\x7d/items/$\x7btrackedValues.itemId || trackedValues.itemid || 'itemId'\x7d" :=
  ⟨replace_path_parameters_no_tokens, rfl⟩

/-- Claim C7 (amended): a property with an absent type and no default takes
the string branch and is emitted; a property with a declared but
unrecognized type (a foreign string, or a non-string value) and no default
is silently omitted. -/
theorem claim_C7 :
    (∀ (name : String) (pf : List (String × JVal)),
      dget pf "type" = none → pyDefault pf = none →
      propEntry name (.obj pf) = some (some (
        if containsS (pyLower name) "id" || containsS (pyLower name) "franchise" then
          "        " ++ name ++ ": trackedValues." ++ name
            ++ " || trackedValues.franchiseId || '" ++ name ++ "_value'"
        else
          "        " ++ name ++ ": '" ++ name ++ "_value'"))) ∧
    (∀ (name : String) (pf : List (String × JVal)) (t : String),
      dget pf "type" = some (.str t) →
      t ∉ ["string", "integer", "number", "boolean", "array", "object"] →
      pyDefault pf = none → propEntry name (.obj pf) = some none) ∧
    (∀ (name : String) (pf : List (String × JVal)) (v : JVal),
      dget pf "type" = some v → v.getStr? = none → pyDefault pf = none →
      propEntry name (.obj pf) = some none) :=
  ⟨propEntry_absent_type, propEntry_unrecognized, propEntry_nonstring_type⟩

/-- Claim C7's counterexample to the original claim: a property with the
declared unrecognized type `weird` and no default is dropped entirely, so
the synthesized body is empty rather than containing a value for `foo`. -/
theorem claim_C7_counterexample :
    generate_request_body schemaC7 "b0" = some "" ∧ containsS "" "foo" = false :=
  ⟨rfl, rfl⟩

/-- Witness for claim C7 at concrete inputs. -/
theorem claim_C7_witness :
    propEntry "foo" (.obj [("type", JVal.str "weird")]) = some none ∧
    propEntry "name" (.obj []) = some (some (
      if containsS (pyLower "name") "id" || containsS (pyLower "name") "franchise" then
        "        " ++ "name" ++ ": trackedValues." ++ "name"
          ++ " || trackedValues.franchiseId || '" ++ "name" ++ "_value'"
      else
        "        " ++ "name" ++ ": '" ++ "name" ++ "_value'")) :=
  ⟨claim_C7.2.1 "foo" [("type", JVal.str "weird")] "weird" rfl (by decide) rfl,
    claim_C7.1 "name" [] rfl rfl⟩

/-- Claim C8: the full generation pipeline is deterministic — two fresh
generators built from the same spec and auth key produce identical output
text. -/
theorem claim_C8 (spec : List (String × JVal)) (auth_key : Option String)
    (g1 g2 : OpenAPIToK6) (h1 : g1 = OpenAPIToK6.init spec auth_key)
    (h2 : g2 = OpenAPIToK6.init spec auth_key) :
    g1.generate = g2.generate := by
  subst h1
  subst h2
  rfl

/-- Witness for claim C8 at a concrete spec and auth key. -/
theorem claim_C8_witness :
    (OpenAPIToK6.init [("paths", JVal.obj [("/u", .obj [("get", .obj [])])])]
      (some "key")).generate =
    (OpenAPIToK6.init [("paths", JVal.obj [("/u", .obj [("get", .obj [])])])]
      (some "key")).generate :=
  claim_C8 [("paths", JVal.obj [("/u", .obj [("get", .obj [])])])] (some "key")
    _ _ rfl rfl

/-- Claim C9: the auth key passed to the generator never influences the
generated script — generation with any two auth keys (including none)
produces identical output, since the stored key is never read. -/
theorem claim_C9 (spec : List (String × JVal)) (k1 k2 : Option String) :
    runPipeline spec k1 = runPipeline spec k2 := by
  unfold runPipeline OpenAPIToK6.generate OpenAPIToK6.parseSpec OpenAPIToK6.init
  cases parse_spec spec <;> rfl

/-- Claim C2: a POST endpoint whose path contains `franchise`
(case-insensitively) gets a separate capture block in its tracking text;
that block, at script run time, stores the response body's `id` field if
truthy, else its `franchiseId` field, under the fixed registry key
`franchiseId`; and end to end, the two-path example spec yields exactly the
one POST endpoint, whose tracking code is exactly the franchise capture
block. -/
theorem claim_C2 :
    (∀ (path : String) (op : List (String × JVal)) (rv m out : String),
      containsS (pyLower path) "franchise" = true →
      dget op "method" = some (.str m) → pyUpper m = "POST" →
      generate_value_tracker path op rv = some out →
      containsS out (franchiseBlock rv) = true) ∧
    (∀ (b : JVal) (reg : List (String × JVal)) (v : JVal) (st : Int),
      st = 201 ∨ st = 200 →
      jsTruthy b = true → jsFieldOpt b "id" = some v → jsTruthy v = true →
      dget (franchiseCaptureSemantics st (some b) reg) "franchiseId" = some v) ∧
    (∀ (b : JVal) (reg : List (String × JVal)) (w : JVal) (st : Int),
      st = 201 ∨ st = 200 →
      jsTruthy b = true → jsTruthyOpt (jsFieldOpt b "id") = false →
      jsFieldOpt b "franchiseId" = some w → jsTruthy w = true →
      dget (franchiseCaptureSemantics st (some b) reg) "franchiseId" = some w) ∧
    parse_spec specC2 = some [⟨"/franchises", "POST", postOpFields,
      .str "post__franchises", .str "http://localhost"⟩] ∧
    generate_value_tracker "/franchises" (mergeMethod postOpFields "POST") "res0" =
      some (franchiseBlock "res0") := by
  refine ⟨?_, ?_, ?_, rfl, rfl⟩
  · intro path op rv m out h1 h2 h3 h4
    simp only [generate_value_tracker] at h4
    have hm : dgetD op "method" (.str "") = .str m := by
      rw [dgetD, h2]
      rfl
    rw [hm] at h4
    simp only [JVal.getStr?, Option.bind_eq_bind, Option.some_bind, h3, h1] at h4
    cases htr : trackLoop op rv (extract_path_parameters path) with
    | none =>
      rw [htr] at h4
      simp only [Option.bind_eq_bind, Option.none_bind] at h4
      exact Option.noConfusion h4
    | some t1 =>
      rw [htr] at h4
      simp only [Option.bind_eq_bind, Option.some_bind] at h4
      have hout : out = pyJoin "\n" (t1 ++ [franchiseBlock rv]) := by
        have := Option.some.inj h4
        simp only [true_and, if_true, eq_self_iff_true] at this
        exact this.symm
      obtain ⟨pre, hpre⟩ := pyJoin_ends_with "\n" t1 (franchiseBlock rv)
      rw [hout, hpre]
      exact containsS_append_self pre (franchiseBlock rv)
  · intro b reg v st hst hb hid hv
    unfold franchiseCaptureSemantics
    rw [if_pos hst]
    show dget (if (jsTruthy b && jsTruthyOpt (jsFieldOpt b "id")) = true then
        regSet reg "franchiseId" ((jsFieldOpt b "id").getD JVal.null)
      else if (jsTruthy b && jsTruthyOpt (jsFieldOpt b "franchiseId")) = true then
        regSet reg "franchiseId" ((jsFieldOpt b "franchiseId").getD JVal.null)
      else reg) "franchiseId" = some v
    rw [hid]
    simp only [hb, jsTruthyOpt, hv, Bool.and_self, if_true, Option.getD_some]
    exact dget_regSet reg "franchiseId" v
  · intro b reg w st hst hb hidf hfr hw
    unfold franchiseCaptureSemantics
    rw [if_pos hst]
    show dget (if (jsTruthy b && jsTruthyOpt (jsFieldOpt b "id")) = true then
        regSet reg "franchiseId" ((jsFieldOpt b "id").getD JVal.null)
      else if (jsTruthy b && jsTruthyOpt (jsFieldOpt b "franchiseId")) = true then
        regSet reg "franchiseId" ((jsFieldOpt b "franchiseId").getD JVal.null)
      else reg) "franchiseId" = some w
    rw [hfr, hidf]
    simp only [hb, jsTruthyOpt, hw, Bool.and_false, Bool.and_self,
      Bool.false_eq_true, if_false, if_true, Option.getD_some]
    exact dget_regSet reg "franchiseId" w

/-- Witness for claim C2 at concrete inputs. -/
theorem claim_C2_witness :
    containsS (franchiseBlock "res0") (franchiseBlock "res0") = true ∧
    dget (franchiseCaptureSemantics 201 (some (.obj [("id", JVal.str "abc")])) [])
      "franchiseId" = some (JVal.str "abc") ∧
    dget (franchiseCaptureSemantics 200
        (some (.obj [("franchiseId", JVal.str "f9")])) []) "franchiseId" =
      some (JVal.str "f9") :=
  ⟨claim_C2.1 "/franchises" [("method", JVal.str "POST")] "res0" "POST"
      (franchiseBlock "res0") rfl rfl rfl rfl,
    claim_C2.2.1 (.obj [("id", JVal.str "abc")]) [] (JVal.str "abc") 201
      (Or.inl rfl) rfl rfl rfl,
    claim_C2.2.2.1 (.obj [("franchiseId", JVal.str "f9")]) [] (JVal.str "f9") 200
      (Or.inr rfl) rfl rfl rfl rfl⟩

/-- Claim C4 (amended): when no `operationId` is declared, the derived
identifier is the raw method key, an underscore, and the path with `/`
replaced by `_` and the braces `\x7b`, `\x7d` removed; extraction is
deterministic and independent of the auth key. -/
theorem claim_C4 :
    (∀ (spec : List (String × JVal)) (es : List Endpoint) (e : Endpoint),
      parse_spec spec = some es → e ∈ es →
      dget e.operation "operationId" = none →
      ∃ m, pyLower m ∈ httpMethods ∧ e.method = pyUpper m ∧
        e.operation_id = .str (m ++ "_" ++
          pyReplace (pyReplace (pyReplace e.path "/" "_") "\x7b" "") "\x7d" "")) ∧
    (∀ (spec : List (String × JVal)) (k1 k2 : Option String),
      ((OpenAPIToK6.init spec k1).parseSpec).map
        (fun g => g.endpoints.map (fun e => e.operation_id)) =
      ((OpenAPIToK6.init spec k2).parseSpec).map
        (fun g => g.endpoints.map (fun e => e.operation_id))) := by
  constructor
  · intro spec es e h he hnone
    obtain ⟨_, m, hm, hmeth, hopid⟩ := parse_spec_mem spec es h e he
    refine ⟨m, hm, hmeth, ?_⟩
    rw [hopid, dgetD, hnone]
    rfl
  · intro spec k1 k2
    unfold OpenAPIToK6.parseSpec OpenAPIToK6.init
    cases parse_spec spec <;> rfl

/-- Claim C4's counterexample to the original claim: for `GET /users` the
derived identifier is `get__users` (the slash becomes an underscore), not
`get_users` as stripping the slash would give. -/
theorem claim_C4_counterexample :
    (parse_spec specC4).map (fun es => es.map (fun e => pyStr e.operation_id)) =
      some ["get__users"] ∧
    ("get__users" : String) ≠ "get" ++ "_" ++ "users" :=
  ⟨rfl, by decide⟩

/-- Witness for claim C4 at the concrete one-path spec. -/
theorem claim_C4_witness :
    ∃ m, pyLower m ∈ httpMethods ∧
      (Endpoint.mk "/users" "GET" [] (.str "get__users")
        (.str "http://localhost")).method = pyUpper m ∧
      (Endpoint.mk "/users" "GET" [] (.str "get__users")
        (.str "http://localhost")).operation_id = .str (m ++ "_" ++
        pyReplace (pyReplace (pyReplace
          (Endpoint.mk "/users" "GET" [] (.str "get__users")
            (.str "http://localhost")).path "/" "_") "\x7b" "") "\x7d" "") :=
  claim_C4.1 specC4
    [Endpoint.mk "/users" "GET" [] (.str "get__users") (.str "http://localhost")]
    (Endpoint.mk "/users" "GET" [] (.str "get__users") (.str "http://localhost"))
    rfl (List.mem_cons_self _ _) rfl

/-- Claim C10: extraction and script assembly abort when `servers` is a
present but empty list (the `[0]` lookup fails instead of falling back),
succeed with the default host when `servers` is absent, and are total only
when `servers` is absent or a non-empty list. -/
theorem claim_C10 :
    (∀ sf : List (String × JVal), dget sf "servers" = some (.arr []) →
      parse_spec sf = none) ∧
    (∀ (sf : List (String × JVal)) (es : List Endpoint),
      dget sf "servers" = some (.arr []) → generate_k6_script sf es = none) ∧
    (∀ sf : List (String × JVal), dget sf "servers" = none →
      getBaseUrlRaw sf = some (.str "http://localhost")) ∧
    (∀ (sf : List (String × JVal)) (es : List Endpoint), parse_spec sf = some es →
      dget sf "servers" = none ∨ ∃ v vs, dget sf "servers" = some (.arr (v :: vs))) ∧
    parse_spec [("servers", JVal.arr []),
      ("paths", .obj [("/x", .obj [("get", .obj [])])])] = none := by
  have habort : ∀ sf : List (String × JVal), dget sf "servers" = some (.arr []) →
      getBaseUrlRaw sf = none := by
    intro sf h
    simp [getBaseUrlRaw, getServersZero, dgetD, h]
  refine ⟨?_, ?_, ?_, ?_, rfl⟩
  · intro sf h
    rw [parse_spec, habort sf h]
    rfl
  · intro sf es h
    rw [generate_k6_script]
    have : getBaseUrlStr sf = none := by
      rw [getBaseUrlStr, habort sf h]
      rfl
    rw [this]
    rfl
  · intro sf h
    simp [getBaseUrlRaw, getServersZero, dgetD, h, JVal.getObj?,
      (show dget ([] : List (String × JVal)) "url" = none from rfl)]
  · intro sf es h
    have hok : getBaseUrlRaw sf ≠ none := by
      intro hn
      rw [parse_spec, hn] at h
      exact Option.noConfusion h
    cases hs : dget sf "servers" with
    | none => exact Or.inl rfl
    | some v =>
      refine Or.inr ?_
      cases v with
      | arr xs =>
        cases xs with
        | nil => exact absurd (habort sf hs) hok
        | cons x xs' => exact ⟨x, xs', rfl⟩
      | str s =>
        exfalso
        apply hok
        simp only [getBaseUrlRaw, getServersZero, dgetD, hs, Option.getD_some]
        cases hsl : s.toList with
        | nil => rfl
        | cons c cs => simp [JVal.getObj?, hsl]
      | null => exact absurd (by simp [getBaseUrlRaw, getServersZero, dgetD, hs]) hok
      | bool b => exact absurd (by simp [getBaseUrlRaw, getServersZero, dgetD, hs]) hok
      | int n => exact absurd (by simp [getBaseUrlRaw, getServersZero, dgetD, hs]) hok
      | obj fs => exact absurd (by simp [getBaseUrlRaw, getServersZero, dgetD, hs]) hok

/-- Witness for claim C10 at concrete inputs. -/
theorem claim_C10_witness :
    parse_spec [("servers", JVal.arr [])] = none ∧
    getBaseUrlRaw [] = some (JVal.str "http://localhost") ∧
    (dget [("paths", JVal.obj [])] "servers" = none ∨
      ∃ v vs, dget [("paths", JVal.obj [])] "servers" = some (.arr (v :: vs))) :=
  ⟨claim_C10.1 [("servers", JVal.arr [])] rfl,
    claim_C10.2.2.1 [] rfl,
    claim_C10.2.2.2.1 [("paths", JVal.obj [])] [] rfl⟩
